import Mathlib

/-!
# Verification of the `censor` palette analyser (Quickmarble/censor)

A shallow embedding, in Lean 4, of the core data model and algorithms of the
`censor` colour-palette analyser, together with proofs and refutations of a
fixed list of specification claims.

## Modelling conventions

* Rust `f32` values are modelled as exact rationals (`ℚ`).  The claims settled
  here do not depend on rounding except where explicitly discussed in doc
  comments; where a claim does depend on the exact IEEE behaviour of one
  computation, the doc comment of the relevant theorem records the f32-level
  analysis.
* `f32::MAX` (used by the source as the initial value of running minima) is the
  exact rational `FMAX = (2^24 - 1) * 2^104`.
* `f32::sqrt` (and `f32::hypot`) are strictly monotone on the non-negative
  reals and are only ever applied by the source to sums of squares.  They are
  modelled by an abstract parameter `sq : ℚ → ℚ` applied to the exact sum of
  squares, or — where only comparisons matter — by comparing the sums of
  squares themselves, as noted per definition.
* `powf`, `exp`, `ln` and trigonometric functions are modelled by abstract
  function parameters: the claims below depend only on the data flow around
  them, never on their values.
* Rust `usize`/`u32` are modelled as `ℕ`, `i32` as `ℤ` (arithmetic overflow,
  which cannot occur in the quantities handled here, is disregarded).
* NaN-sensitive computations (`BigCacher::compute_spectrum` at ratio `0.0`,
  where the source divides `0.0 / 0.0`) are modelled in the type
  `F := Option ℚ`, with `none` standing for a non-finite `f32` (NaN or ±∞);
  every arithmetic operation propagates `none`, and division by zero produces
  `none`.
* Rust `HashMap` is modelled as a function to `Option`, `HashSet` as `Finset`,
  and in-place vector mutation as functional update.
-/

set_option autoImplicit false

universe u v

/-- The exact rational value of `f32::MAX` = `(2 − 2⁻²³)·2¹²⁷ =
(2²⁴ − 1)·2¹⁰⁴`, written as a literal so that kernel reduction works. -/
def FMAX : ℚ := 340282346638528859811704183484516925440

theorem FMAX_eq_pow : FMAX = (2 ^ 24 - 1) * 2 ^ 104 := by norm_num [FMAX]

theorem FMAX_pos : 0 < FMAX := by norm_num [FMAX]

/-- CAM16-UCS colour value (`colour.rs`, `struct CAM16UCS`): UCS lightness `J`,
opponent components `a`, `b`, and the pre-UCS chroma `C`.  Components are
modelled as exact rationals. -/
structure CAM16UCS where
  J : ℚ
  a : ℚ
  b : ℚ
  C : ℚ
deriving DecidableEq, Repr

namespace CAM16UCS

/-- Squared CAM16-UCS distance: the source's `CAM16UCS::dist` is
`sqrt((xJ-yJ)² + (xa-ya)² + (xb-yb)²)` (the `C` component does not enter);
this definition is the radicand.  `f32::sqrt` is monotone, so wherever the
source only compares distances we compare radicands instead; where the source
consumes the distance as a number we apply an abstract square-root parameter
`sq` to this radicand. -/
def dist2 (x y : CAM16UCS) : ℚ :=
  (x.J - y.J) ^ 2 + (x.a - y.a) ^ 2 + (x.b - y.b) ^ 2

theorem dist2_nonneg (x y : CAM16UCS) : 0 ≤ dist2 x y := by
  have h1 : (0:ℚ) ≤ (x.J - y.J) ^ 2 := sq_nonneg _
  have h2 : (0:ℚ) ≤ (x.a - y.a) ^ 2 := sq_nonneg _
  have h3 : (0:ℚ) ≤ (x.b - y.b) ^ 2 := sq_nonneg _
  unfold dist2; linarith

theorem dist2_self (x : CAM16UCS) : dist2 x x = 0 := by
  simp [dist2]

theorem dist2_comm (x y : CAM16UCS) : dist2 x y = dist2 y x := by
  unfold dist2; ring

/-- `CAM16UCS::mix` (`colour.rs`): component-wise linear interpolation
`interpolate(one, another, a) = one·(1−a) + another·a` of `(J,a,b,C)`. -/
def mix (one another : CAM16UCS) (a : ℚ) : CAM16UCS :=
  ⟨one.J * (1 - a) + another.J * a,
   one.a * (1 - a) + another.a * a,
   one.b * (1 - a) + another.b * a,
   one.C * (1 - a) + another.C * a⟩

end CAM16UCS

section ArgminLoop

variable {α : Type u}

/-- The running-minimum loop pattern used throughout the source
(`Palette::minimise`, `Palette::nearest`, `CIEuv::CCT`, …): start from
`(a0, m0)` (`argmin = a0`, `min = m0`; the source uses `m0 = f32::MAX`), then
for each element `x` in order, if `f x < min` set `(argmin, min) := (x, f x)`. -/
def argminLoop (l : List α) (f : α → ℚ) (a0 : α) (m0 : ℚ) : α × ℚ :=
  l.foldl (fun acc x => if f x < acc.2 then (x, f x) else acc) (a0, m0)

theorem argminLoop_nil (f : α → ℚ) (a0 : α) (m0 : ℚ) :
    argminLoop [] f a0 m0 = (a0, m0) := rfl

theorem argminLoop_cons (x : α) (l : List α) (f : α → ℚ) (a0 : α) (m0 : ℚ) :
    argminLoop (x :: l) f a0 m0 =
      if f x < m0 then argminLoop l f x (f x) else argminLoop l f a0 m0 := by
  by_cases h : f x < m0 <;> simp [argminLoop, h]

theorem argminLoop_le_init (l : List α) (f : α → ℚ) (a0 : α) (m0 : ℚ) :
    (argminLoop l f a0 m0).2 ≤ m0 := by
  induction l generalizing a0 m0 with
  | nil => exact le_rfl
  | cons x t ih =>
    rw [argminLoop_cons]
    by_cases h : f x < m0
    · rw [if_pos h]; exact le_trans (ih x (f x)) h.le
    · rw [if_neg h]; exact ih a0 m0

theorem argminLoop_le_mem (l : List α) (f : α → ℚ) (a0 : α) (m0 : ℚ) :
    ∀ y ∈ l, (argminLoop l f a0 m0).2 ≤ f y := by
  induction l generalizing a0 m0 with
  | nil => intro y hy; cases hy
  | cons x t ih =>
    intro y hy
    rw [argminLoop_cons]
    rcases List.mem_cons.mp hy with rfl | hyt
    · by_cases h : f y < m0
      · rw [if_pos h]; exact argminLoop_le_init t f y (f y)
      · rw [if_neg h]
        exact le_trans (argminLoop_le_init t f a0 m0) (le_of_not_lt h)
    · by_cases h : f x < m0
      · rw [if_pos h]; exact ih x (f x) y hyt
      · rw [if_neg h]; exact ih a0 m0 y hyt

theorem argminLoop_cases (l : List α) (f : α → ℚ) (a0 : α) (m0 : ℚ) :
    argminLoop l f a0 m0 = (a0, m0) ∨
      ((argminLoop l f a0 m0).1 ∈ l ∧
        f (argminLoop l f a0 m0).1 = (argminLoop l f a0 m0).2 ∧
        (argminLoop l f a0 m0).2 < m0) := by
  induction l generalizing a0 m0 with
  | nil => left; rfl
  | cons x t ih =>
    rw [argminLoop_cons]
    by_cases h : f x < m0
    · rw [if_pos h]
      rcases ih x (f x) with heq | ⟨hmem, hfx, hlt⟩
      · right
        rw [heq]
        exact ⟨List.mem_cons_self x t, rfl, h⟩
      · right
        exact ⟨List.mem_cons_of_mem x hmem, hfx, lt_trans hlt h⟩
    · rw [if_neg h]
      rcases ih a0 m0 with heq | ⟨hmem, hfx, hlt⟩
      · left; exact heq
      · right; exact ⟨List.mem_cons_of_mem x hmem, hfx, hlt⟩

/-- When the loop improved on its initial value, its result is the first list
element attaining the final minimum. -/
theorem argminLoop_find? (l : List α) (f : α → ℚ) (a0 : α) (m0 : ℚ)
    (h : (argminLoop l f a0 m0).2 < m0) :
    l.find? (fun x => decide (f x = (argminLoop l f a0 m0).2)) =
      some (argminLoop l f a0 m0).1 := by
  induction l generalizing a0 m0 with
  | nil => exact absurd h (lt_irrefl m0)
  | cons x t ih =>
    rw [argminLoop_cons] at h ⊢
    by_cases hx : f x < m0
    · rw [if_pos hx] at h ⊢
      have hle : (argminLoop t f x (f x)).2 ≤ f x := argminLoop_le_init t f x (f x)
      rcases lt_or_eq_of_le hle with hlt | heq
      · have hne : ¬ (f x = (argminLoop t f x (f x)).2) := fun hc =>
          lt_irrefl _ (hlt.trans_eq hc)
        rw [List.find?_cons_of_neg _ (by simpa using hne)]
        exact ih x (f x) hlt
      · rcases argminLoop_cases t f x (f x) with hcase | ⟨_, _, hlt2⟩
        · rw [hcase]
          exact List.find?_cons_of_pos _ (by simp [hcase])
        · exact absurd hlt2 (not_lt.mpr heq.ge)
    · rw [if_neg hx] at h ⊢
      have hne : ¬ (f x = (argminLoop t f a0 m0).2) := fun hc =>
        hx (hc ▸ h)
      rw [List.find?_cons_of_neg _ (by simpa using hne)]
      exact ih a0 m0 h

end ArgminLoop

/-! ## Plot cache (`cache.rs`) -/

/-- `PlotData<T>` (`cache.rs`): a dense matrix of `Option T`; `None` marks
"outside domain". -/
structure PlotData (T : Type u) where
  data : List (List (Option T))
deriving DecidableEq

/-- `PlotData::empty(w, h)`: an `h × w` matrix of `None`. -/
def PlotData.empty (T : Type u) (w h : ℕ) : PlotData T :=
  ⟨List.replicate h (List.replicate w none)⟩

/-- `BigCacher` (`cache.rs`): three memo tables keyed by illuminant
temperature.  The `PackedF32` keys (f32 compared by bit pattern) are modelled
as exact rationals; each Rust `HashMap` is modelled as a function to
`Option`. -/
structure BigCacher where
  version : ℕ
  plots : ℚ × String → Option (PlotData CAM16UCS)
  spectra : ℚ × ℚ → Option (List CAM16UCS)
  cam16_boundaries : ℚ → Option (List ℚ)

/-- `BigCacher::VERSION`. -/
def BigCacher.VERSION : ℕ := 2

/-- `BigCacher::new()`. -/
def BigCacher.new : BigCacher :=
  ⟨BigCacher.VERSION, fun _ => none, fun _ => none, fun _ => none⟩

/-- `BigCacher::get_plot`. -/
def BigCacher.get_plot (c : BigCacher) (T : ℚ) (key : String) :
    Option (PlotData CAM16UCS) :=
  c.plots (T, key)

/-- `BigCacher::set_plot`: `self.plots.insert(k, p)` — a `HashMap` insert,
which replaces any existing entry at the key. -/
def BigCacher.set_plot (c : BigCacher) (T : ℚ) (key : String)
    (p : PlotData CAM16UCS) : BigCacher :=
  { c with plots := fun k => if k = (T, key) then some p else c.plots k }

/-- `BigCacher::get_spectrum`. -/
def BigCacher.get_spectrum (c : BigCacher) (T ratio : ℚ) :
    Option (List CAM16UCS) :=
  c.spectra (T, ratio)

/-- `BigCacher::set_spectrum` (`HashMap` insert). -/
def BigCacher.set_spectrum (c : BigCacher) (T ratio : ℚ)
    (spectrum : List CAM16UCS) : BigCacher :=
  { c with spectra := fun k => if k = (T, ratio) then some spectrum else c.spectra k }

/-- `BigCacher::get_cam16_boundary`. -/
def BigCacher.get_cam16_boundary (c : BigCacher) (T : ℚ) : Option (List ℚ) :=
  c.cam16_boundaries T

/-- `BigCacher::set_cam16_boundary` (`HashMap` insert). -/
def BigCacher.set_cam16_boundary (c : BigCacher) (T : ℚ)
    (boundary : List ℚ) : BigCacher :=
  { c with cam16_boundaries := fun k => if k = T then some boundary else c.cam16_boundaries k }

/-- `CacheRequest` (`cache.rs`). -/
inductive CacheRequest where
  | PlotState (T : ℚ) (key : String)
  | PlotWrite (T : ℚ) (key : String) (data : PlotData CAM16UCS)
  | CAM16BoundaryState (T : ℚ)
  | CAM16BoundaryWrite (T : ℚ) (data : List ℚ)
  | SpectrumState (T : ℚ) (ratio : ℚ)
  | SpectrumWrite (T : ℚ) (ratio : ℚ) (data : List CAM16UCS)

/-- `CacheResponse` (`cache.rs`). -/
inductive CacheResponse where
  | Plot (p : Option (PlotData CAM16UCS))
  | CAM16Boundary (b : Option (List ℚ))
  | Spectrum (s : Option (List CAM16UCS))

/-- One dispatch step of `CacheHoster::process` (`cache.rs`, the `match` on a
received request): state requests answer from the cacher, write requests
mutate it and send nothing.  Channel mechanics are outside the model. -/
def CacheHoster.processRequest (c : BigCacher) :
    CacheRequest → BigCacher × Option CacheResponse
  | .PlotState T key => (c, some (.Plot (c.get_plot T key)))
  | .PlotWrite T key data => (c.set_plot T key data, none)
  | .CAM16BoundaryState T => (c, some (.CAM16Boundary (c.get_cam16_boundary T)))
  | .CAM16BoundaryWrite T data => (c.set_cam16_boundary T data, none)
  | .SpectrumState T ratio => (c, some (.Spectrum (c.get_spectrum T ratio)))
  | .SpectrumWrite T ratio data => (c.set_spectrum T ratio data, none)

/-- C2 (counterexample): cache entries are not write-once.  Concretely: store
a 1×1 plot under `(5500, "k")`, then `set_plot` a different 1×1 plot under the
same key; the stored entry is no longer the first value.  (`set_plot` is a
`HashMap::insert`, which replaces.) -/
theorem C2_counterexample :
    ¬ ((((BigCacher.new.set_plot 5500 "k" ⟨[[some ⟨0,0,0,0⟩]]⟩).set_plot
          5500 "k" ⟨[[some ⟨1,0,0,0⟩]]⟩).get_plot 5500 "k") =
        some ⟨[[some ⟨0,0,0,0⟩]]⟩) := by
  decide

/-- C2 (amended): `set_plot` replaces — the last writer wins.  After
`set_plot T key p` the entry stored under `(T, key)` is `p`, whatever was
stored before; the cache host handles a `PlotWrite` request by exactly this
`set_plot` and sends no response. -/
theorem C2_set_plot_replaces (c : BigCacher) (T : ℚ) (key : String)
    (p : PlotData CAM16UCS) :
    (c.set_plot T key p).get_plot T key = some p ∧
    CacheHoster.processRequest c (CacheRequest.PlotWrite T key p) =
      (c.set_plot T key p, none) := by
  constructor
  · simp [BigCacher.set_plot, BigCacher.get_plot]
  · rfl

/-! ## Threshold matrices (`dither.rs`) -/

/-- One doubling step of `ThresholdMatrix::bayer` (`dither.rs`): from a `d × d`
rank matrix `order` build the `2d × 2d` matrix with
`new[j][i] = 4·order[j][i]`, `new[j][d+i] = 4·order[j][i] + 2`,
`new[d+j][i] = 4·order[j][i] + 3`, `new[d+j][d+i] = 4·order[j][i] + 1`
(NW, NE, SW, SE quadrants). -/
def bayerStep (order : List (List ℕ)) : List (List ℕ) :=
  (order.map fun row => row.map (fun k => 4 * k) ++ row.map (fun k => 4 * k + 2)) ++
  (order.map fun row => row.map (fun k => 4 * k + 3) ++ row.map (fun k => 4 * k + 1))

/-- `ThresholdMatrix::bayer(n)` (`dither.rs`): start from `[[0]]` and apply
the doubling step `n` times. -/
def bayer : ℕ → List (List ℕ)
  | 0 => [[0]]
  | n + 1 => bayerStep (bayer n)

theorem bayer_length (n : ℕ) : (bayer n).length = 2 ^ n := by
  induction n with
  | zero => rfl
  | succ n ih =>
    show (bayerStep (bayer n)).length = 2 ^ (n + 1)
    simp [bayerStep, ih, pow_succ]
    ring

theorem bayer_row_length (n : ℕ) : ∀ row ∈ bayer n, row.length = 2 ^ n := by
  induction n with
  | zero => intro row hrow; simp [bayer] at hrow; simp [hrow]
  | succ n ih =>
    intro row hrow
    have hrow' : row ∈ bayerStep (bayer n) := hrow
    rcases List.mem_append.mp hrow' with hmem | hmem <;>
    · rcases List.mem_map.mp hmem with ⟨r, hr, rfl⟩
      simp [ih r hr, pow_succ]
      ring

theorem coe_flatten_map_append (l : List (List ℕ)) (f g : ℕ → ℕ) :
    (((l.map fun row => row.map f ++ row.map g).flatten : List ℕ) : Multiset ℕ) =
      (↑(l.flatten.map f) : Multiset ℕ) + ↑(l.flatten.map g) := by
  induction l with
  | nil => simp
  | cons r t ih =>
    simp only [List.map_cons, List.flatten_cons, List.map_append]
    rw [← Multiset.coe_add, ← Multiset.coe_add, ← Multiset.coe_add, ih,
        ← Multiset.coe_add]
    abel

theorem range_quad (m : ℕ) :
    Multiset.range (4 * m) =
      (Multiset.range m).map (fun k => 4 * k) +
      (Multiset.range m).map (fun k => 4 * k + 2) +
      (Multiset.range m).map (fun k => 4 * k + 3) +
      (Multiset.range m).map (fun k => 4 * k + 1) := by
  induction m with
  | zero => simp
  | succ m ih =>
    have h4 : 4 * (m + 1) = 4 * m + 1 + 1 + 1 + 1 := by ring
    rw [h4, Multiset.range_succ, Multiset.range_succ, Multiset.range_succ,
        Multiset.range_succ, ih, Multiset.range_succ]
    have e1 : 4 * m + 1 + 1 = 4 * m + 2 := by ring
    have e2 : 4 * m + 1 + 1 + 1 = 4 * m + 3 := by ring
    rw [e1, e2]
    simp only [Multiset.map_cons, ← Multiset.singleton_add, Multiset.map_add,
      Multiset.map_singleton]
    abel

/-- The entries of `bayer n` form a permutation of `{0, …, 4^n − 1}`. -/
theorem bayer_flatten_perm (n : ℕ) :
    (((bayer n).flatten : List ℕ) : Multiset ℕ) = Multiset.range (4 ^ n) := by
  induction n with
  | zero => rfl
  | succ n ih =>
    show ((bayerStep (bayer n)).flatten : Multiset ℕ) = _
    rw [bayerStep, List.flatten_append, ← Multiset.coe_add,
        coe_flatten_map_append, coe_flatten_map_append,
        ← Multiset.map_coe, ← Multiset.map_coe, ← Multiset.map_coe,
        ← Multiset.map_coe, ih]
    have h4 : (4:ℕ) ^ (n + 1) = 4 * 4 ^ n := by ring
    rw [h4, range_quad]
    abel

/-- C5: `ThresholdMatrix::bayer(n)` is a `2^n × 2^n` matrix whose entries form
a permutation of `{0, …, 4^n − 1}` (stated as a multiset equality: each value
occurs exactly once), built by the recursive rule placing `4k, 4k+2, 4k+3,
4k+1` into the NW, NE, SW, SE quadrants (definition `bayerStep`); in
particular `bayer 2` has first row `0, 8, 2, 10`. -/
theorem C5_bayer_permutation (n : ℕ) :
    (bayer n).length = 2 ^ n ∧
    (∀ row ∈ bayer n, row.length = 2 ^ n) ∧
    (((bayer n).flatten : List ℕ) : Multiset ℕ) = Multiset.range (4 ^ n) ∧
    (bayer 2).head? = some [0, 8, 2, 10] :=
  ⟨bayer_length n, bayer_row_length n, bayer_flatten_perm n, rfl⟩

/-- `ThresholdMatrix` (`dither.rs`): dimensions plus the rank matrix. -/
structure ThresholdMatrix where
  w : ℕ
  h : ℕ
  order : List (List ℕ)

/-- `CyclicClip::cyclic_clip` at type `usize` (`util.rs`): a `usize` is never
below zero, and the loop subtracts `period` until the value drops below it —
for `period ≥ 1` that computes `x % period` (for `period = 0` the source loop
would not terminate; `ThresholdMatrix::at` only reaches it with `w, h ≥ 1`). -/
def cyclicClip (x period : ℕ) : ℕ := x % period

theorem cyclicClip_lt (x period : ℕ) (h : 1 ≤ period) :
    cyclicClip x period < period :=
  Nat.mod_lt x h

/-- `ThresholdMatrix::at` (`dither.rs`): `max = w·h − 1`; if `max = 0` return
`0`, else wrap both coordinates with `cyclic_clip` and return
`order[j][i] / max`.  Rust indexing panics out of bounds; the model reads with
a default, and the shape facts proved below show the default is never used. -/
def ThresholdMatrix.at (m : ThresholdMatrix) (x y : ℕ) : ℚ :=
  if m.w * m.h - 1 = 0 then 0
  else (((m.order.getD (cyclicClip y m.h) []).getD (cyclicClip x m.w) 0 : ℕ) : ℚ) /
    ((m.w * m.h - 1 : ℕ) : ℚ)

/-- `ThresholdMatrix::bayer(n)` packaged with its dimensions (`w = h = 2^n`). -/
def bayerMatrix (n : ℕ) : ThresholdMatrix :=
  ⟨2 ^ n, 2 ^ n, bayer n⟩

/-- `ThresholdMatrix::whitenoise(w, h)` (`dither.rs`): `order[j][i] =
perm[j·w + i]` where `perm` is the output of `random_permutation(w · h)` —
a `thread_rng` shuffle of `0..w·h`, modelled as a parameter constrained (in
the theorems) to be a permutation of `0..w·h`. -/
def whitenoiseMatrix (w h : ℕ) (perm : List ℕ) : ThresholdMatrix :=
  ⟨w, h, (List.range h).map fun j => (List.range w).map fun i => perm.getD (j * w + i) 0⟩

/-- Functional update `g[y][x] := v` of a row-major matrix (the model of the
source's in-place `data[y][x] = v`). -/
def set2 {α : Type u} (g : List (List α)) (x y : ℕ) (v : α) : List (List α) :=
  g.set y ((g.getD y []).set x v)

/-- `CyclicClip::cyclic_clip` at type `i32` (`util.rs`): add the period while
negative, subtract while `≥ period`; for `period ≥ 1` this is `Int.emod`. -/
def cyclicClipZ (x period : ℤ) : ℤ := x % period

/-- The integer range `a..b` (exclusive upper end), as iterated by Rust `for`
loops; empty when `b ≤ a`. -/
def intRange (a b : ℤ) : List ℤ :=
  (List.range (b - a).toNat).map fun k => a + (k : ℤ)

/-- The inclusive integer range `a..=b`. -/
def intRangeIncl (a b : ℤ) : List ℤ :=
  intRange a (b + 1)

/-- The inner accumulation of `ThresholdMatrix::cluster` (`dither.rs`) for one
cell `(x, y)` holding `val`: a Gaussian-kernel sum (σ = 1.5, radius
`min w h / 2`, toroidal distance) over all same-valued pixels in the window.
`f32::hypot(dx, dy)` is modelled by the abstract `sq` applied to `dx² + dy²`,
`f32::exp` by the abstract `fexp`; the cluster values only feed `argmax`, so
the claims below hold for every `sq` and `fexp`. -/
def clusterCell (sq fexp : ℚ → ℚ) (data : List (List Bool)) (w h : ℕ)
    (val : Bool) (x y : ℕ) : ℚ :=
  let s : ℚ := 3 / 2
  let radius : ℤ := min (w : ℤ) (h : ℤ) / 2
  (intRangeIncl ((x : ℤ) - radius) ((x : ℤ) + radius)).foldl (fun acc xi =>
    let xx := cyclicClipZ xi (w : ℤ)
    (intRangeIncl ((y : ℤ) - radius) ((y : ℤ) + radius)).foldl (fun acc2 yi =>
      let yy := cyclicClipZ yi (h : ℤ)
      if (data.getD yy.toNat []).getD xx.toNat !val = val then
        let xmin := min (x : ℤ) xx
        let xmax := max (x : ℤ) xx
        let ymin := min (y : ℤ) yy
        let ymax := max (y : ℤ) yy
        let dx : ℚ := ((min (xmax - xmin) ((w : ℤ) + xmin - xmax) : ℤ) : ℚ)
        let dy : ℚ := ((min (ymax - ymin) ((h : ℤ) + ymin - ymax) : ℤ) : ℚ)
        let dr := sq (dx ^ 2 + dy ^ 2)
        let t := dr / s
        acc2 + fexp (-(t ^ 2) / 2)
      else acc2) acc) 0

/-- `ThresholdMatrix::cluster` (`dither.rs`): the cluster measure of every
cell; cells not holding `val` score `0`. -/
def cluster (sq fexp : ℚ → ℚ) (data : List (List Bool)) (w h : ℕ) (val : Bool) :
    List (List ℚ) :=
  (List.range h).map fun y => (List.range w).map fun x =>
    if (data.getD y []).getD x !val = val then clusterCell sq fexp data w h val x y
    else 0

/-- `ThresholdMatrix::argmax` (`dither.rs`): scan `i ∈ 0..w` (outer),
`j ∈ 0..h` (inner), keeping the first strict improvement over
`v_max = data[0][0]`, starting from `(x, y) = (0, 0)`. -/
def argmax (data : List (List ℚ)) (w h : ℕ) : ℕ × ℕ :=
  (((List.range w).flatMap fun i => (List.range h).map fun j => (i, j)).foldl
    (fun acc p =>
      if (data.getD p.2 []).getD p.1 0 > acc.2 then (p, (data.getD p.2 []).getD p.1 0)
      else acc)
    ((0, 0), (data.getD 0 []).getD 0 0)).1

/-- The rank-assignment passes of `ThresholdMatrix::bluenoise` (`dither.rs`).
The void-and-cluster refinement of the initial white-noise binary pattern (a
`loop` whose termination the source does not bound) and the `thread_rng`
shuffle are modelled by taking the resulting binary pattern `initial` as a
parameter.  First pass: for `rank = ones−1` down to `0`, locate the tightest
cluster of `true` cells, clear it, record `rank` there.  Second pass: for
`rank = ones` up to `w·h − 1`, locate the largest void of `false` cells, set
it, record `rank` there. -/
def bnStep (sq fexp : ℚ → ℚ) (w h : ℕ) (val : Bool)
    (acc : List (List Bool) × List (List ℕ)) (rank : ℕ) :
    List (List Bool) × List (List ℕ) :=
  let cl := cluster sq fexp acc.1 w h val
  let p := argmax cl w h
  (set2 acc.1 p.1 p.2 (!val), set2 acc.2 p.1 p.2 rank)

def bluenoiseOrder (sq fexp : ℚ → ℚ) (w h : ℕ) (initial : List (List Bool)) :
    List (List ℕ) :=
  let ones := (initial.map fun row => row.count true).sum
  let firstPass :=
    ((List.range ones).reverse).foldl (bnStep sq fexp w h true)
      (initial, List.replicate h (List.replicate w 0))
  ((List.range' ones (w * h - ones)).foldl (bnStep sq fexp w h false)
    (initial, firstPass.2)).2

/-- `ThresholdMatrix::bluenoise(w, h)` packaged with its dimensions. -/
def bluenoiseMatrix (sq fexp : ℚ → ℚ) (w h : ℕ) (initial : List (List Bool)) :
    ThresholdMatrix :=
  ⟨w, h, bluenoiseOrder sq fexp w h initial⟩

/-- A row-major matrix with `h` rows, each of length `w`. -/
def MatShape {α : Type u} (w h : ℕ) (g : List (List α)) : Prop :=
  g.length = h ∧ ∀ row ∈ g, row.length = w

/-- All entries of a rank matrix are below `B`. -/
def AllLt (g : List (List ℕ)) (B : ℕ) : Prop :=
  ∀ row ∈ g, ∀ e ∈ row, e < B

theorem getD_mem_or {α : Type u} (l : List α) (n : ℕ) (d : α) :
    l.getD n d = d ∨ l.getD n d ∈ l := by
  rcases lt_or_le n l.length with h | h
  · right
    rw [List.getD_eq_getElem l d h]
    exact List.getElem_mem h
  · left
    exact List.getD_eq_default l d h

theorem foldl_preserve {α : Type u} {β : Type v} (P : β → Prop)
    (step : β → α → β) (l : List α) (init : β) (h0 : P init)
    (hstep : ∀ b a, P b → a ∈ l → P (step b a)) : P (l.foldl step init) := by
  induction l generalizing init with
  | nil => exact h0
  | cons x t ih =>
    exact ih (step init x) (hstep init x h0 (List.mem_cons_self x t))
      (fun b a hb ha => hstep b a hb (List.mem_cons_of_mem x ha))

theorem set2_shape {α : Type u} (w h : ℕ) (g : List (List α)) (x y : ℕ) (v : α)
    (hg : MatShape w h g) : MatShape w h (set2 g x y v) := by
  obtain ⟨hl, hr⟩ := hg
  rcases lt_or_le y g.length with hy | hy
  · refine ⟨by simp [set2, hl], ?_⟩
    intro row hrow
    rcases List.mem_or_eq_of_mem_set hrow with hmem | rfl
    · exact hr row hmem
    · rw [List.length_set, List.getD_eq_getElem g [] hy]
      exact hr _ (List.getElem_mem hy)
  · unfold set2
    rw [List.set_eq_of_length_le hy]
    exact ⟨hl, hr⟩

theorem set2_allLt (B : ℕ) (g : List (List ℕ)) (x y : ℕ) (v : ℕ)
    (hg : AllLt g B) (hv : v < B) : AllLt (set2 g x y v) B := by
  rcases lt_or_le y g.length with hy | hy
  · intro row hrow e he
    rcases List.mem_or_eq_of_mem_set hrow with hmem | rfl
    · exact hg row hmem e he
    · rcases List.mem_or_eq_of_mem_set he with hmem | rfl
      · rw [List.getD_eq_getElem g [] hy] at hmem
        exact hg _ (List.getElem_mem hy) e hmem
      · exact hv
  · unfold set2
    rw [List.set_eq_of_length_le hy]
    exact hg

theorem replicate_shape {α : Type u} (w h : ℕ) (a : α) :
    MatShape w h (List.replicate h (List.replicate w a)) := by
  refine ⟨by simp, ?_⟩
  intro row hrow
  rw [List.eq_of_mem_replicate hrow]
  simp

theorem replicate_allLt (w h B : ℕ) (hB : 1 ≤ B) :
    AllLt (List.replicate h (List.replicate w 0)) B := by
  intro row hrow e he
  rw [List.eq_of_mem_replicate hrow] at he
  rw [List.eq_of_mem_replicate he]
  exact hB

theorem bayer_allLt (n : ℕ) : AllLt (bayer n) (4 ^ n) := by
  intro row hrow e he
  have hmem : e ∈ (bayer n).flatten := List.mem_flatten.mpr ⟨row, hrow, he⟩
  have : e ∈ (((bayer n).flatten : List ℕ) : Multiset ℕ) := Multiset.mem_coe.mpr hmem
  rw [bayer_flatten_perm n] at this
  exact Multiset.mem_range.mp this

theorem whitenoise_shape (w h : ℕ) (perm : List ℕ) :
    MatShape w h (whitenoiseMatrix w h perm).order := by
  refine ⟨by simp [whitenoiseMatrix], ?_⟩
  intro row hrow
  rcases List.mem_map.mp hrow with ⟨j, _, rfl⟩
  simp

theorem whitenoise_allLt (w h : ℕ) (perm : List ℕ) (hwh : 1 ≤ w * h)
    (hperm : perm.Perm (List.range (w * h))) :
    AllLt (whitenoiseMatrix w h perm).order (w * h) := by
  intro row hrow e he
  rcases List.mem_map.mp hrow with ⟨j, _, rfl⟩
  rcases List.mem_map.mp he with ⟨i, _, rfl⟩
  rcases getD_mem_or perm (j * w + i) 0 with hd | hd
  · rw [hd]; exact hwh
  · exact List.mem_range.mp (hperm.mem_iff.mp hd)

theorem bnStep_props (sq fexp : ℚ → ℚ) (w h : ℕ) (val : Bool)
    (acc : List (List Bool) × List (List ℕ)) (rank : ℕ)
    (hacc : MatShape w h acc.2 ∧ AllLt acc.2 (w * h)) (hrk : rank < w * h) :
    MatShape w h (bnStep sq fexp w h val acc rank).2 ∧
      AllLt (bnStep sq fexp w h val acc rank).2 (w * h) :=
  ⟨set2_shape w h acc.2 _ _ rank hacc.1, set2_allLt (w * h) acc.2 _ _ rank hacc.2 hrk⟩

theorem bluenoise_props (sq fexp : ℚ → ℚ) (w h : ℕ) (initial : List (List Bool))
    (hwh : 1 ≤ w * h) (hlen : initial.length = h)
    (hrows : ∀ row ∈ initial, row.length = w) :
    MatShape w h (bluenoiseOrder sq fexp w h initial) ∧
      AllLt (bluenoiseOrder sq fexp w h initial) (w * h) := by
  have hones : (initial.map fun row => row.count true).sum ≤ w * h := by
    have hb : ∀ x ∈ initial.map fun row => row.count true, x ≤ w := by
      intro x hx
      rcases List.mem_map.mp hx with ⟨row, hrow, rfl⟩
      exact le_trans (List.count_le_length _ _) (le_of_eq (hrows row hrow))
    have := List.sum_le_card_nsmul (initial.map fun row => row.count true) w hb
    calc (initial.map fun row => row.count true).sum
        ≤ (initial.map fun row => row.count true).length • w := this
      _ = w * h := by simp [hlen, mul_comm]
  unfold bluenoiseOrder
  have h1 := foldl_preserve
    (fun acc : List (List Bool) × List (List ℕ) => MatShape w h acc.2 ∧ AllLt acc.2 (w * h))
    (bnStep sq fexp w h true)
    ((List.range ((initial.map fun row => row.count true).sum)).reverse)
    (initial, List.replicate h (List.replicate w 0))
    ⟨replicate_shape w h 0, replicate_allLt w h (w * h) hwh⟩
    (fun b a hb ha => bnStep_props sq fexp w h true b a hb (by
      rw [List.mem_reverse, List.mem_range] at ha
      omega))
  exact foldl_preserve
    (fun acc : List (List Bool) × List (List ℕ) => MatShape w h acc.2 ∧ AllLt acc.2 (w * h))
    (bnStep sq fexp w h false)
    (List.range' ((initial.map fun row => row.count true).sum)
      (w * h - (initial.map fun row => row.count true).sum))
    (initial, _)
    ⟨h1.1, h1.2⟩
    (fun b a hb ha => bnStep_props sq fexp w h false b a hb (by
      have := List.mem_range'_1.mp ha
      omega))

theorem at_mem_unit_interval (m : ThresholdMatrix)
    (hB : AllLt m.order (m.w * m.h)) (x y : ℕ) :
    0 ≤ m.at x y ∧ m.at x y ≤ 1 := by
  unfold ThresholdMatrix.at
  split_ifs with hmx
  · norm_num
  · have hone : 1 ≤ m.w * m.h - 1 := Nat.one_le_iff_ne_zero.mpr hmx
    have hpos : (0:ℚ) < ((m.w * m.h - 1 : ℕ) : ℚ) := by exact_mod_cast hone
    constructor
    · positivity
    · rw [div_le_one hpos]
      have hentry : (m.order.getD (cyclicClip y m.h) []).getD (cyclicClip x m.w) 0
          ≤ m.w * m.h - 1 := by
        rcases getD_mem_or m.order (cyclicClip y m.h) [] with hd | hd
        · rw [hd]
          simp
        · rcases getD_mem_or (m.order.getD (cyclicClip y m.h) [])
            (cyclicClip x m.w) 0 with hd2 | hd2
          · rw [hd2]; exact Nat.zero_le _
          · have := hB _ hd _ hd2
            omega
      exact_mod_cast hentry

theorem at_of_single_cell (m : ThresholdMatrix) (hm : m.w * m.h = 1) (x y : ℕ) :
    m.at x y = 0 := by
  unfold ThresholdMatrix.at
  rw [if_pos (by omega)]

/-- C9: for every `ThresholdMatrix` produced by `bayer(n)`,
`whitenoise(w, h)` (with its shuffled permutation) or `bluenoise(w, h)` (with
any post-refinement binary pattern), `at(x, y)` lies in `[0, 1]` for
coordinates of any magnitude; a `1×1` matrix yields `0`; coordinates are
wrapped with `cyclic_clip` (`x % w`, `y % h`), which stays inside the stated
`h × w` shape of each rank matrix, so no out-of-bounds access occurs. -/
theorem C9_threshold_at :
    (∀ n x y, 0 ≤ (bayerMatrix n).at x y ∧ (bayerMatrix n).at x y ≤ 1) ∧
    (∀ w h perm x y, 1 ≤ w * h → perm.Perm (List.range (w * h)) →
      0 ≤ (whitenoiseMatrix w h perm).at x y ∧ (whitenoiseMatrix w h perm).at x y ≤ 1) ∧
    (∀ sq fexp w h initial x y, 1 ≤ w * h → initial.length = h →
      (∀ row ∈ initial, row.length = w) →
      0 ≤ (bluenoiseMatrix sq fexp w h initial).at x y ∧
        (bluenoiseMatrix sq fexp w h initial).at x y ≤ 1) ∧
    (∀ m : ThresholdMatrix, m.w * m.h = 1 → ∀ x y, m.at x y = 0) ∧
    (∀ x w, 1 ≤ w → cyclicClip x w < w) ∧
    (∀ n, MatShape (2 ^ n) (2 ^ n) (bayerMatrix n).order) ∧
    (∀ w h perm, MatShape w h (whitenoiseMatrix w h perm).order) ∧
    (∀ sq fexp w h initial, 1 ≤ w * h → initial.length = h →
      (∀ row ∈ initial, row.length = w) →
      MatShape w h (bluenoiseMatrix sq fexp w h initial).order) := by
  refine ⟨?_, ?_, ?_, ?_, ?_, ?_, ?_, ?_⟩
  · intro n x y
    apply at_mem_unit_interval
    show AllLt (bayer n) (2 ^ n * 2 ^ n)
    have h4 : (4:ℕ) ^ n = 2 ^ n * 2 ^ n := by
      rw [show (4:ℕ) = 2 * 2 from rfl, mul_pow]
    exact h4 ▸ bayer_allLt n
  · intro w h perm x y hwh hperm
    exact at_mem_unit_interval _ (whitenoise_allLt w h perm hwh hperm) x y
  · intro sq fexp w h initial x y hwh hlen hrows
    exact at_mem_unit_interval _ (bluenoise_props sq fexp w h initial hwh hlen hrows).2 x y
  · intro m hm x y
    exact at_of_single_cell m hm x y
  · intro x w hw
    exact cyclicClip_lt x w hw
  · intro n
    exact ⟨bayer_length n, bayer_row_length n⟩
  · intro w h perm
    exact whitenoise_shape w h perm
  · intro sq fexp w h initial hwh hlen hrows
    exact (bluenoise_props sq fexp w h initial hwh hlen hrows).1

/-- Witness for C9 at concrete inputs: the white-noise matrix `1×2` with the
shuffle `[1, 0]` read far out of range, and a `1×1` blue-noise matrix. -/
theorem C9_threshold_at_witness :
    ((1:ℕ) ≤ 1 * 2) ∧ ([1, 0] : List ℕ).Perm (List.range (1 * 2)) ∧
    (0 ≤ (whitenoiseMatrix 1 2 [1, 0]).at 5 7 ∧
      (whitenoiseMatrix 1 2 [1, 0]).at 5 7 ≤ 1) ∧
    (0 ≤ (bluenoiseMatrix id id 1 1 [[true]]).at 3 4 ∧
      (bluenoiseMatrix id id 1 1 [[true]]).at 3 4 ≤ 1) :=
  ⟨by decide, by decide,
   C9_threshold_at.2.1 1 2 [1, 0] 5 7 (by decide) (by decide),
   C9_threshold_at.2.2.1 id id 1 1 [[true]] 3 4 (by decide) (by decide) (by decide)⟩

/-! ## Palette (`palette.rs`) -/

namespace Palette

/-- `Palette::minimise` (`palette.rs`): the index of the first strict running
minimum of `score(i, cam16[i])` over `i ∈ 0..n`, starting from
`(argmin, min) = (0, f32::MAX)`. -/
def minimise (cam16 : List CAM16UCS) (score : ℕ → CAM16UCS → ℚ) : ℕ :=
  (argminLoop (List.range cam16.length)
    (fun i => score i (cam16.getD i ⟨0, 0, 0, 0⟩)) 0 FMAX).1

/-- `CAM16UCS::dist_limatch` (`colour.rs`):
`(1 − t)·dist(x, y) + t·|x.J − y.J|`, with `dist` modelled as the abstract
square root `sq` of the exact radicand. -/
def dist_limatch (sq : ℚ → ℚ) (x y : CAM16UCS) (t : ℚ) : ℚ :=
  (1 - t) * sq (CAM16UCS.dist2 x y) + t * |x.J - y.J|

/-- `bl` (`Palette::new`): argmin of `dist(c, (J=0, a=0, b=0, C=0))`. -/
def bl (sq : ℚ → ℚ) (cam16 : List CAM16UCS) : ℕ :=
  minimise cam16 (fun _ c => sq (CAM16UCS.dist2 c ⟨0, 0, 0, 0⟩))

/-- The `bg` score closure of `Palette::new`: `f32::MAX` at index `bl`, else
`−(not_bl^0.02 · not_grey^0.98)` with `not_grey = 100 − dist(c, (J=50,0,0))`
and `not_bl = dist_limatch(c, cam16[bl], 0.6)`; `powf` is the abstract `rp`. -/
def bgScore (sq : ℚ → ℚ) (rp : ℚ → ℚ → ℚ) (cam16 : List CAM16UCS) (blIdx : ℕ)
    (i : ℕ) (c : CAM16UCS) : ℚ :=
  if i = blIdx then FMAX
  else
    -(rp (dist_limatch sq c (cam16.getD blIdx ⟨0, 0, 0, 0⟩) (3/5)) (1/50) *
      rp (100 - sq (CAM16UCS.dist2 c ⟨50, 0, 0, 0⟩)) (49/50))

/-- `bg` (`Palette::new`). -/
def bg (sq : ℚ → ℚ) (rp : ℚ → ℚ → ℚ) (cam16 : List CAM16UCS) : ℕ :=
  minimise cam16 (bgScore sq rp cam16 (bl sq cam16))

/-- The `fg` score closure of `Palette::new`: `f32::MAX` at `bl`, else
`−dist(c, cam16[bl])`. -/
def fgScore (sq : ℚ → ℚ) (cam16 : List CAM16UCS) (blIdx : ℕ)
    (i : ℕ) (c : CAM16UCS) : ℚ :=
  if i = blIdx then FMAX
  else -(sq (CAM16UCS.dist2 c (cam16.getD blIdx ⟨0, 0, 0, 0⟩)))

/-- `fg` (`Palette::new`). -/
def fg (sq : ℚ → ℚ) (cam16 : List CAM16UCS) : ℕ :=
  minimise cam16 (fgScore sq cam16 (bl sq cam16))

/-- The `tl` score closure of `Palette::new`: `f32::MAX` at `bg`, else
`−dist_limatch(c, cam16[bg], 0.6)`. -/
def tlScore (sq : ℚ → ℚ) (cam16 : List CAM16UCS) (bgIdx : ℕ)
    (i : ℕ) (c : CAM16UCS) : ℚ :=
  if i = bgIdx then FMAX
  else -(dist_limatch sq c (cam16.getD bgIdx ⟨0, 0, 0, 0⟩) (3/5))

/-- `tl` (`Palette::new`). -/
def tl (sq : ℚ → ℚ) (rp : ℚ → ℚ → ℚ) (cam16 : List CAM16UCS) : ℕ :=
  minimise cam16 (tlScore sq cam16 (bg sq rp cam16))

/-- If some in-range index scores strictly below `f32::MAX` while index `k`
always scores exactly `f32::MAX`, `minimise` cannot return `k`. -/
theorem minimise_ne (cam16 : List CAM16UCS) (score : ℕ → CAM16UCS → ℚ) (k : ℕ)
    (hk : ∀ c, score k c = FMAX)
    (hex : ∃ i, i < cam16.length ∧ score i (cam16.getD i ⟨0, 0, 0, 0⟩) < FMAX) :
    minimise cam16 score ≠ k := by
  intro hcontra
  obtain ⟨i, hi, hlt⟩ := hex
  have hmem : i ∈ List.range cam16.length := List.mem_range.mpr hi
  have hle := argminLoop_le_mem (List.range cam16.length)
    (fun j => score j (cam16.getD j ⟨0, 0, 0, 0⟩)) 0 FMAX i hmem
  have hr2 : (argminLoop (List.range cam16.length)
      (fun j => score j (cam16.getD j ⟨0, 0, 0, 0⟩)) 0 FMAX).2 < FMAX :=
    lt_of_le_of_lt hle hlt
  rcases argminLoop_cases (List.range cam16.length)
      (fun j => score j (cam16.getD j ⟨0, 0, 0, 0⟩)) 0 FMAX with heq | ⟨_, hfr, _⟩
  · rw [heq] at hr2
    exact lt_irrefl FMAX hr2
  · have hfk : score (minimise cam16 score) (cam16.getD (minimise cam16 score) ⟨0, 0, 0, 0⟩)
        = (argminLoop (List.range cam16.length)
            (fun j => score j (cam16.getD j ⟨0, 0, 0, 0⟩)) 0 FMAX).2 := hfr
    rw [hcontra, hk] at hfk
    rw [← hfk] at hr2
    exact lt_irrefl FMAX hr2

end Palette

/-- C6: role disjointness of `Palette::new`'s UI-role indices for every
palette with at least two entries: `bl ≠ bg`, `bl ≠ fg`, `bg ≠ tl`.  The
score closures are embedded over the palette's CAM16 list; `sq` models
`f32::sqrt` (its values are non-negative) and `rp` models `powf` at the
exponents `0.02` and `0.98` (whose finite values are non-negative), so every
non-excluded score is `≤ 0 < f32::MAX` while the excluded index scores
exactly `f32::MAX` and can never win the strict running minimum. -/
theorem C6_role_disjointness (sq : ℚ → ℚ) (rp : ℚ → ℚ → ℚ)
    (cam16 : List CAM16UCS) (hn : 2 ≤ cam16.length)
    (hsq : ∀ q, 0 ≤ q → 0 ≤ sq q) (hrp : ∀ x y, 0 ≤ rp x y) :
    Palette.bl sq cam16 ≠ Palette.bg sq rp cam16 ∧
    Palette.bl sq cam16 ≠ Palette.fg sq cam16 ∧
    Palette.bg sq rp cam16 ≠ Palette.tl sq rp cam16 := by
  have hpick : ∀ k : ℕ, ∃ i, i < cam16.length ∧ i ≠ k := by
    intro k
    rcases Nat.eq_zero_or_pos k with rfl | hk
    · exact ⟨1, by omega, by omega⟩
    · exact ⟨0, by omega, by omega⟩
  refine ⟨?_, ?_, ?_⟩
  · apply Ne.symm
    apply Palette.minimise_ne
    · intro c
      simp [Palette.bgScore]
    · obtain ⟨i, hi, hne⟩ := hpick (Palette.bl sq cam16)
      refine ⟨i, hi, ?_⟩
      rw [Palette.bgScore, if_neg hne]
      have hnn := mul_nonneg
        (hrp (Palette.dist_limatch sq (cam16.getD i ⟨0, 0, 0, 0⟩)
          (cam16.getD (Palette.bl sq cam16) ⟨0, 0, 0, 0⟩) (3/5)) (1/50))
        (hrp (100 - sq (CAM16UCS.dist2 (cam16.getD i ⟨0, 0, 0, 0⟩)
          ⟨50, 0, 0, 0⟩)) (49/50))
      linarith [FMAX_pos]
  · apply Ne.symm
    apply Palette.minimise_ne
    · intro c
      simp [Palette.fgScore]
    · obtain ⟨i, hi, hne⟩ := hpick (Palette.bl sq cam16)
      refine ⟨i, hi, ?_⟩
      rw [Palette.fgScore, if_neg hne]
      have hs := hsq _ (CAM16UCS.dist2_nonneg (cam16.getD i ⟨0, 0, 0, 0⟩)
        (cam16.getD (Palette.bl sq cam16) ⟨0, 0, 0, 0⟩))
      linarith [FMAX_pos]
  · apply Ne.symm
    apply Palette.minimise_ne
    · intro c
      simp [Palette.tlScore]
    · obtain ⟨i, hi, hne⟩ := hpick (Palette.bg sq rp cam16)
      refine ⟨i, hi, ?_⟩
      rw [Palette.tlScore, if_neg hne, Palette.dist_limatch]
      have hs := hsq _ (CAM16UCS.dist2_nonneg (cam16.getD i ⟨0, 0, 0, 0⟩)
        (cam16.getD (Palette.bg sq rp cam16) ⟨0, 0, 0, 0⟩))
      have habs : (0:ℚ) ≤ |(cam16.getD i ⟨0, 0, 0, 0⟩).J -
          (cam16.getD (Palette.bg sq rp cam16) ⟨0, 0, 0, 0⟩).J| := abs_nonneg _
      linarith [FMAX_pos]

/-- Witness for C6 at a concrete two-colour palette with concrete `sq`, `rp`. -/
theorem C6_role_disjointness_witness :
    (2 ≤ ([⟨0, 0, 0, 0⟩, ⟨1, 2, 3, 4⟩] : List CAM16UCS).length) ∧
    (Palette.bl (fun _ => 0) [⟨0, 0, 0, 0⟩, ⟨1, 2, 3, 4⟩] ≠
        Palette.bg (fun _ => 0) (fun _ _ => 0) [⟨0, 0, 0, 0⟩, ⟨1, 2, 3, 4⟩] ∧
      Palette.bl (fun _ => 0) [⟨0, 0, 0, 0⟩, ⟨1, 2, 3, 4⟩] ≠
        Palette.fg (fun _ => 0) [⟨0, 0, 0, 0⟩, ⟨1, 2, 3, 4⟩] ∧
      Palette.bg (fun _ => 0) (fun _ _ => 0) [⟨0, 0, 0, 0⟩, ⟨1, 2, 3, 4⟩] ≠
        Palette.tl (fun _ => 0) (fun _ _ => 0) [⟨0, 0, 0, 0⟩, ⟨1, 2, 3, 4⟩]) :=
  ⟨by decide,
   C6_role_disjointness (fun _ => 0) (fun _ _ => 0) [⟨0, 0, 0, 0⟩, ⟨1, 2, 3, 4⟩]
     (by decide) (fun q _ => le_refl 0) (fun x y => le_refl 0)⟩

/-! ## CCT lookup (`colour.rs`) -/

/-- `CIExy` chromaticity (`colour.rs`). -/
structure CIExy where
  x : ℚ
  y : ℚ
deriving DecidableEq

/-- `CIEuv` chromaticity (`colour.rs`). -/
structure CIEuv where
  u : ℚ
  v : ℚ
deriving DecidableEq

namespace CIEuv

/-- Radicand of `CIEuv::dist` (Euclidean in `u, v`). -/
def dist2 (a b : CIEuv) : ℚ :=
  (a.u - b.u) ^ 2 + (a.v - b.v) ^ 2

end CIEuv

/-- `CIExy::from_T` (`colour.rs`): the McCamy-style daylight-locus polynomial,
one branch for `T ≤ 7000`, another above; the f32 literals are idealised as
their decimal values. -/
def CIExy.from_T (T : ℚ) : CIExy :=
  let x : ℚ :=
    if T ≤ 7000 then
      0.244063 + 0.09911 * 1000 / T + 2.9678 * 1000000 / T ^ 2
        - 4.6070 * 1000000000 / T ^ 9
    else
      0.237040 + 0.24748 * 1000 / T + 1.9018 * 1000000 / T ^ 2
        - 2.0064 * 1000000000 / T ^ 9
  { x := x, y := -3 * x ^ 2 + 2.87 * x - 0.275 }

/-- `CIEuv::from(CIExy)` (`colour.rs`): the CIE 1960 UCS formula. -/
def CIEuv.fromXy (c : CIExy) : CIEuv :=
  { u := (0.4661 * c.x + 0.1593 * c.y) / (c.y - 0.15735 * c.x + 0.2424),
    v := 0.6581 * c.y / (c.y - 0.15735 * c.x + 0.2424) }

/-- `CIEuv::CCT_table` (`colour.rs`): `(T, uv)` for
`T ∈ [1000, 25000]` in steps of `100` K — 241 entries. -/
def CCT_table : List (ℚ × CIEuv) :=
  (List.range 241).map fun k =>
    (((1000 + 100 * k : ℕ) : ℚ), CIEuv.fromXy (CIExy.from_T ((1000 + 100 * k : ℕ) : ℚ)))

/-- `CIEuv::CCT` (`colour.rs`): scan the table with the running-minimum loop
(`best_T = 0`, `min = f32::MAX`), then return `Some((best_T, min))` when
`min ≤ 0.05`, else `None`.  The distance is `sq` (modelling `f32::sqrt`)
applied to the exact radicand. -/
def CIEuv.CCT (sq : ℚ → ℚ) (c : CIEuv) : Option (ℚ × ℚ) :=
  if (argminLoop CCT_table (fun p => sq (CIEuv.dist2 c p.2)) (0, ⟨0, 0⟩) FMAX).2 ≤ 1/20
  then some ((argminLoop CCT_table (fun p => sq (CIEuv.dist2 c p.2)) (0, ⟨0, 0⟩) FMAX).1.1,
    (argminLoop CCT_table (fun p => sq (CIEuv.dist2 c p.2)) (0, ⟨0, 0⟩) FMAX).2)
  else none

/-- C7: `CIEuv::CCT` returns `Some((T, d))` exactly when `d` is at most
`0.05`, where `d` is the minimum table distance (it bounds every table entry
from below and is attained first at temperature `T`); otherwise it returns
`None` — the colour is off the locus.  Both directions, for every colour and
every model `sq` of `f32::sqrt`. -/
theorem C7_CCT_iff (sq : ℚ → ℚ) (c : CIEuv) :
    (∀ T d, CIEuv.CCT sq c = some (T, d) ↔
      (d ≤ 1/20 ∧ (∀ p ∈ CCT_table, d ≤ sq (CIEuv.dist2 c p.2)) ∧
        ∃ uv, CCT_table.find?
          (fun p => decide (sq (CIEuv.dist2 c p.2) = d)) = some (T, uv))) ∧
    (CIEuv.CCT sq c = none ↔ ∀ p ∈ CCT_table, 1/20 < sq (CIEuv.dist2 c p.2)) := by
  have hFM : (1/20 : ℚ) < FMAX := by norm_num [FMAX]
  constructor
  · intro T d
    constructor
    · intro hsome
      unfold CIEuv.CCT at hsome
      split_ifs at hsome with hcond
      have hpair := Option.some.inj hsome
      have hT : (argminLoop CCT_table (fun p => sq (CIEuv.dist2 c p.2))
          (0, ⟨0, 0⟩) FMAX).1.1 = T := congrArg Prod.fst hpair
      have hd : (argminLoop CCT_table (fun p => sq (CIEuv.dist2 c p.2))
          (0, ⟨0, 0⟩) FMAX).2 = d := congrArg Prod.snd hpair
      refine ⟨hd ▸ hcond, ?_, ?_⟩
      · intro p hp
        rw [← hd]
        exact argminLoop_le_mem CCT_table _ (0, ⟨0, 0⟩) FMAX p hp
      · have hlt : (argminLoop CCT_table (fun p => sq (CIEuv.dist2 c p.2))
            (0, ⟨0, 0⟩) FMAX).2 < FMAX := lt_of_le_of_lt hcond hFM
        have hfind := argminLoop_find? CCT_table
          (fun p => sq (CIEuv.dist2 c p.2)) (0, ⟨0, 0⟩) FMAX hlt
        rw [hd] at hfind
        subst hT
        exact ⟨(argminLoop CCT_table (fun p => sq (CIEuv.dist2 c p.2))
          (0, ⟨0, 0⟩) FMAX).1.2, hfind⟩
    · rintro ⟨hd05, hlower, uv, hfind⟩
      have hmem : (T, uv) ∈ CCT_table := List.mem_of_find?_eq_some hfind
      have hpred : sq (CIEuv.dist2 c uv) = d := by
        have := List.find?_some hfind
        simpa using this
      have hle : (argminLoop CCT_table (fun p => sq (CIEuv.dist2 c p.2))
          (0, ⟨0, 0⟩) FMAX).2 ≤ d :=
        hpred ▸ argminLoop_le_mem CCT_table _ (0, ⟨0, 0⟩) FMAX (T, uv) hmem
      have hlt : (argminLoop CCT_table (fun p => sq (CIEuv.dist2 c p.2))
          (0, ⟨0, 0⟩) FMAX).2 < FMAX := lt_of_le_of_lt hle (lt_of_le_of_lt hd05 hFM)
      rcases argminLoop_cases CCT_table (fun p => sq (CIEuv.dist2 c p.2))
          (0, ⟨0, 0⟩) FMAX with heq | ⟨hmem2, hfr, _⟩
      · rw [heq] at hlt
        exact absurd hlt (lt_irrefl FMAX)
      · have hge : d ≤ (argminLoop CCT_table (fun p => sq (CIEuv.dist2 c p.2))
            (0, ⟨0, 0⟩) FMAX).2 := hfr ▸ hlower _ hmem2
        have heqd : (argminLoop CCT_table (fun p => sq (CIEuv.dist2 c p.2))
            (0, ⟨0, 0⟩) FMAX).2 = d := le_antisymm hle hge
        have hfind2 := argminLoop_find? CCT_table
          (fun p => sq (CIEuv.dist2 c p.2)) (0, ⟨0, 0⟩) FMAX hlt
        rw [heqd] at hfind2
        have hre : ((T, uv) : ℚ × CIEuv) = (argminLoop CCT_table
            (fun p => sq (CIEuv.dist2 c p.2)) (0, ⟨0, 0⟩) FMAX).1 :=
          Option.some.inj (hfind.symm.trans hfind2)
        have hT1 : (argminLoop CCT_table (fun p => sq (CIEuv.dist2 c p.2))
            (0, ⟨0, 0⟩) FMAX).1.1 = T := (congrArg Prod.fst hre).symm
        unfold CIEuv.CCT
        rw [if_pos (heqd.le.trans hd05)]
        rw [heqd, hT1]
  · constructor
    · intro hnone p hp
      unfold CIEuv.CCT at hnone
      split_ifs at hnone with hcond
      exact lt_of_lt_of_le (lt_of_not_le hcond)
        (argminLoop_le_mem CCT_table _ (0, ⟨0, 0⟩) FMAX p hp)
    · intro hall
      unfold CIEuv.CCT
      rw [if_neg]
      intro hcond
      rcases argminLoop_cases CCT_table (fun p => sq (CIEuv.dist2 c p.2))
          (0, ⟨0, 0⟩) FMAX with heq | ⟨hmem2, hfr, _⟩
      · rw [heq] at hcond
        exact absurd hcond (not_le.mpr hFM)
      · exact absurd (le_trans (le_of_eq hfr) hcond)
          (not_le.mpr (hall _ hmem2))

/-! ## Internal similarity and acyclicity (`palette.rs`) -/

/-- The pair enumeration `for i in 0..n { for j in i+1..n }` used by
`internal_similarity`, `is_acyclic` and `useful_mixes` (`palette.rs`). -/
def pairIndices (n : ℕ) : List (ℕ × ℕ) :=
  (List.range n).flatMap fun i => ((List.range n).drop (i + 1)).map fun j => (i, j)

/-- `Palette::internal_similarity` (`palette.rs`): accumulate
`mean += dist / pair_n` and the running minimum (initial `f32::MAX`) over all
pairs; if `min > 0` return `(mean / min) / n^(2/3)`, else NaN — modelled as
`none`.  `sq` models `f32::sqrt` on the exact radicand, `rp` models `powf`. -/
def internalSimilarity (sq : ℚ → ℚ) (rp : ℚ → ℚ → ℚ)
    (cam16 : List CAM16UCS) : Option ℚ :=
  let n := cam16.length
  let pairN := n * (n - 1) / 2
  let ds := (pairIndices n).map fun p =>
    sq (CAM16UCS.dist2 (cam16.getD p.1 ⟨0, 0, 0, 0⟩) (cam16.getD p.2 ⟨0, 0, 0, 0⟩))
  let mean := (ds.map fun d => d / (pairN : ℚ)).sum
  let mn := ds.foldl (fun m d => if d < m then d else m) FMAX
  if mn > 0 then some ((mean / mn) / rp (n : ℚ) (2/3)) else none

/-- `find_k` (`palette.rs`, inside `Palette::is_acyclic`): the first cluster
index containing `i`, or `usize::MAX` (modelled `2^64 − 1`) if none. -/
def find_k (clusters : List (Finset ℕ)) (i : ℕ) : ℕ :=
  (clusters.findIdx? fun s => decide (i ∈ s)).getD (2 ^ 64 - 1)

/-- `Vec::swap_remove(k)`: overwrite position `k` with the last element, then
pop the last element. -/
def swapRemove {α : Type u} (l : List α) (k : ℕ) : List α :=
  match l.getLast? with
  | none => l
  | some lastE => (l.set k lastE).dropLast

/-- The edge loop of `Palette::is_acyclic` (`palette.rs`): for each pair in
ascending-distance order, either join the two clusters (union, then
`swap_remove` the second) or — if the endpoints already share a cluster —
report a cycle unless some intermediate `k` is `connected` to both ends;
each processed edge is added to `connected` in both orientations. -/
def isAcyclicGo (n : ℕ) :
    List (ℕ × ℕ) → Finset (ℕ × ℕ) → List (Finset ℕ) → Bool
  | [], _, _ => true
  | (i, j) :: rest, connected, clusters =>
    let ki := find_k clusters i
    let kj := find_k clusters j
    if ki ≠ kj then
      isAcyclicGo n rest (connected ∪ {(i, j), (j, i)})
        (swapRemove (clusters.set ki ((clusters.getD ki ∅) ∪ (clusters.getD kj ∅))) kj)
    else
      if (List.range n).all fun k => !((i, k) ∈ connected ∧ (k, j) ∈ connected)
      then false
      else isAcyclicGo n rest (connected ∪ {(i, j), (j, i)}) clusters

/-- `Palette::is_acyclic` (`palette.rs`): sort all pairs by distance
(`sort_by_key` is a stable sort, modelled by the stable `insertionSort`; the
`PackedF32` key order is the rational order here), seed `connected` with the
reflexive pairs and `clusters` with singletons, and run the edge loop. -/
def isAcyclic (sq : ℚ → ℚ) (cam16 : List CAM16UCS) : Bool :=
  let n := cam16.length
  let pairs := (pairIndices n).map fun p =>
    (p, sq (CAM16UCS.dist2 (cam16.getD p.1 ⟨0, 0, 0, 0⟩) (cam16.getD p.2 ⟨0, 0, 0, 0⟩)))
  let sorted := pairs.insertionSort fun a b => a.2 ≤ b.2
  let connected := ((List.range n).map fun i => (i, i)).toFinset
  let clusters := (List.range n).map fun i => ({i} : Finset ℕ)
  isAcyclicGo n (sorted.map Prod.fst) connected clusters

/-- Evaluation of `internal_similarity` on a two-colour palette whose single
pairwise distance is positive and below `f32::MAX`: the mean equals the
minimum, so the result is `(mean/min)/2^(2/3) = 1/2^(2/3)`. -/
theorem internalSimilarity_pair (sq : ℚ → ℚ) (rp : ℚ → ℚ → ℚ) (c0 c1 : CAM16UCS)
    (h1 : 0 < sq (CAM16UCS.dist2 c0 c1)) (h2 : sq (CAM16UCS.dist2 c0 c1) < FMAX) :
    internalSimilarity sq rp [c0, c1] = some (1 / rp 2 (2/3)) := by
  unfold internalSimilarity
  have hp : pairIndices 2 = [(0, 1)] := rfl
  simp only [List.length_cons, List.length_nil, Nat.zero_add, hp, List.map_cons,
    List.map_nil, List.foldl_cons, List.foldl_nil, List.getD_cons_zero,
    List.getD_cons_succ, List.sum_cons, List.sum_nil]
  rw [if_pos h2]
  rw [if_pos h1]
  norm_num
  rw [div_self (ne_of_gt h1), one_div]

/-- `is_acyclic` on any two-colour palette: the single edge joins the two
singleton clusters, and the loop ends with `true`. -/
theorem isAcyclic_pair (sq : ℚ → ℚ) (c0 c1 : CAM16UCS) :
    isAcyclic sq [c0, c1] = true := rfl

/-- C1 (counterexample): the claim asserts `compute --all` prints `iss,NaN`
for the palette `#000000,#ffffff` at D55, i.e. that `internal_similarity` is
NaN there.  It is not.  At D55 the CAM16-UCS value of `#000000` is exactly
`(J, a, b, C) = (0, 0, 0, 0)` in `f32` (in the post-adaptation response the
achromatic sum `(2·0.1 + 0.1) + 0.05·0.1 − 0.305` rounds to exactly `+0.0`,
so `A = 0`, `J = 0`, and `C = 0` forces `a' = b' = 0`), while `#ffffff` has
`J ≈ 99.87`; the single pairwise distance is therefore positive (`≈ 101`),
`min = mean > 0`, and the result is the finite `1/2^(2/3) ≈ 0.63` — the line
printed is `iss,0.63`.  Concretely, with `J(white)` standing at `100` and the
identity standing in for `sqrt` (only positivity of the distance matters),
the result is `some`, not the NaN marker `none`. -/
theorem C1_counterexample :
    internalSimilarity id (fun b _ => b) [⟨0, 0, 0, 0⟩, ⟨100, 0, 0, 0⟩] ≠ none ∧
    internalSimilarity id (fun b _ => b) [⟨0, 0, 0, 0⟩, ⟨100, 0, 0, 0⟩] = some (1/2) := by
  have h := internalSimilarity_pair id (fun b _ => b) ⟨0, 0, 0, 0⟩ ⟨100, 0, 0, 0⟩
    (by norm_num [CAM16UCS.dist2]) (by norm_num [CAM16UCS.dist2, FMAX])
  constructor
  · rw [h]; simp
  · rw [h]

/-- C1 (amended): for the two-colour palette the `compute --all` metrics are
`iss = (mean/min)/2^(2/3) = 1/2^(2/3) ≈ 0.63` (finite and positive — printed
`iss,0.63`, not `iss,NaN`; the NaN branch requires `min = 0`, but the
black–white distance is positive) and `acyclic = true`.  Stated for any two
CAM16 points at positive distance (as `#000000`/`#ffffff` at D55 are), any
model `sq` of `f32::sqrt`, and any model `rp` of `powf` that is positive at
`(2, 2/3)` (the real value is `2^(2/3) ≈ 1.587`). -/
theorem C1_iss_acyclic_two_colour (sq : ℚ → ℚ) (rp : ℚ → ℚ → ℚ)
    (c0 c1 : CAM16UCS)
    (h1 : 0 < sq (CAM16UCS.dist2 c0 c1)) (h2 : sq (CAM16UCS.dist2 c0 c1) < FMAX)
    (h3 : 0 < rp 2 (2/3)) :
    internalSimilarity sq rp [c0, c1] = some (1 / rp 2 (2/3)) ∧
    0 < 1 / rp 2 (2/3) ∧
    isAcyclic sq [c0, c1] = true :=
  ⟨internalSimilarity_pair sq rp c0 c1 h1 h2, by positivity,
   isAcyclic_pair sq c0 c1⟩

/-- Witness for C1's amended statement at the concrete model points. -/
theorem C1_iss_acyclic_witness :
    (0 < id (CAM16UCS.dist2 ⟨0, 0, 0, 0⟩ ⟨100, 0, 0, 0⟩)) ∧
    (id (CAM16UCS.dist2 ⟨0, 0, 0, 0⟩ ⟨100, 0, 0, 0⟩) < FMAX) ∧
    ((0:ℚ) < (fun _ _ => (2:ℚ)) 2 (2/3)) ∧
    (internalSimilarity id (fun _ _ => (2:ℚ)) [⟨0, 0, 0, 0⟩, ⟨100, 0, 0, 0⟩] =
        some (1 / 2) ∧
      (0:ℚ) < 1 / 2 ∧
      isAcyclic id [⟨0, 0, 0, 0⟩, ⟨100, 0, 0, 0⟩] = true) :=
  ⟨by norm_num [CAM16UCS.dist2], by norm_num [CAM16UCS.dist2, FMAX], by norm_num,
   C1_iss_acyclic_two_colour id (fun _ _ => (2:ℚ)) ⟨0, 0, 0, 0⟩ ⟨100, 0, 0, 0⟩
     (by norm_num [CAM16UCS.dist2]) (by norm_num [CAM16UCS.dist2, FMAX])
     (by norm_num)⟩

/-! ## Ordered dithering (`dither.rs`) -/

/-- `RGB255` (`colour.rs`): an 8-bit RGB triple (component range is not
relevant to the claims; `ℕ` models `u8`). -/
structure RGB255 where
  r : ℕ
  g : ℕ
  b : ℕ
deriving DecidableEq, Repr

/-- The slice of `Palette` read by the ditherer (`palette.rs`): the parallel
`rgb`/`cam16` arrays and the count `n`. -/
structure PaletteData where
  n : ℕ
  rgb : List RGB255
  cam16 : List CAM16UCS

/-- `Palette::nearest` (`palette.rs`): the running-minimum loop over
`i ∈ 0..n` on `dist(x, cam16[i])` (initial `argmin = 0`, `min = f32::MAX`),
returning `rgb[argmin]`. -/
def Palette.nearest (sq : ℚ → ℚ) (p : PaletteData) (x : CAM16UCS) : RGB255 :=
  p.rgb.getD (argminLoop (List.range p.n)
    (fun i => sq (CAM16UCS.dist2 x (p.cam16.getD i ⟨0, 0, 0, 0⟩))) 0 FMAX).1 ⟨0, 0, 0⟩

/-- `J_spread = (J_max − J_min) / n` of `OrderedDither::dither` (`dither.rs`);
the `PackedF32` minimum/maximum over the palette's `J` components is the
rational minimum/maximum here. -/
def J_spread (p : PaletteData) : ℚ :=
  (((p.cam16.map CAM16UCS.J).maximum).unbot' 0 -
    ((p.cam16.map CAM16UCS.J).minimum).untop' 0) / (p.n : ℚ)

/-- `OrderedDither::dither` (`dither.rs`): `w`/`h` from the input grid, and
per cell either `None` (kept) or `Some (nearest (c with J += J_spread·(at(i,j)
− 0.5)))`.  The threshold structure is the function `thr`. -/
def ditherImage (sq : ℚ → ℚ) (p : PaletteData) (thr : ℕ → ℕ → ℚ)
    (input : List (List (Option CAM16UCS))) : List (List (Option RGB255)) :=
  (List.range input.length).map fun j =>
    (List.range (input.getD 0 []).length).map fun i =>
      match (input.getD j []).getD i none with
      | none => none
      | some c => some (Palette.nearest sq p
          ⟨c.J + J_spread p * (thr i j - 1/2), c.a, c.b, c.C⟩)

theorem getD_map_range {α : Type u} (n j : ℕ) (f : ℕ → α) (d : α) (hj : j < n) :
    ((List.range n).map f).getD j d = f j := by
  have hlen : j < ((List.range n).map f).length := by simpa using hj
  rw [List.getD_eq_getElem _ d hlen]
  simp

/-- If index `k` is strictly nearest to `x` (and its distance is finite),
`nearest` returns `rgb[k]`. -/
theorem nearest_eq_of_strict (sq : ℚ → ℚ) (p : PaletteData) (x : CAM16UCS)
    (k : ℕ) (hk : k < p.n)
    (hfin : sq (CAM16UCS.dist2 x (p.cam16.getD k ⟨0, 0, 0, 0⟩)) < FMAX)
    (hmin : ∀ m, m < p.n → m ≠ k →
      sq (CAM16UCS.dist2 x (p.cam16.getD k ⟨0, 0, 0, 0⟩)) <
        sq (CAM16UCS.dist2 x (p.cam16.getD m ⟨0, 0, 0, 0⟩))) :
    Palette.nearest sq p x = p.rgb.getD k ⟨0, 0, 0⟩ := by
  unfold Palette.nearest
  congr 1
  have hkmem : k ∈ List.range p.n := List.mem_range.mpr hk
  have hle := argminLoop_le_mem (List.range p.n)
    (fun i => sq (CAM16UCS.dist2 x (p.cam16.getD i ⟨0, 0, 0, 0⟩))) 0 FMAX k hkmem
  have hlt : (argminLoop (List.range p.n)
      (fun i => sq (CAM16UCS.dist2 x (p.cam16.getD i ⟨0, 0, 0, 0⟩))) 0 FMAX).2 < FMAX :=
    lt_of_le_of_lt hle hfin
  rcases argminLoop_cases (List.range p.n)
      (fun i => sq (CAM16UCS.dist2 x (p.cam16.getD i ⟨0, 0, 0, 0⟩))) 0 FMAX with
    heq | ⟨hmem, hfr, _⟩
  · rw [heq] at hlt
    exact absurd hlt (lt_irrefl FMAX)
  · by_contra hne
    have harg : (argminLoop (List.range p.n)
        (fun i => sq (CAM16UCS.dist2 x (p.cam16.getD i ⟨0, 0, 0, 0⟩))) 0 FMAX).1 < p.n :=
      List.mem_range.mp hmem
    have hgt := hmin _ harg hne
    rw [hfr] at hgt
    exact absurd (lt_of_le_of_lt hle hgt) (lt_irrefl _)

/-- Jitter of magnitude at most half the spread cannot undo a separation
larger than the spread (pure algebra on the squared distances). -/
theorem jitter_sep (S e dJ da db : ℚ) (he : 2 * |e| ≤ S)
    (hsep : S ^ 2 < dJ ^ 2 + da ^ 2 + db ^ 2) :
    e ^ 2 < (dJ + e) ^ 2 + da ^ 2 + db ^ 2 := by
  have h4 : 4 * e ^ 2 ≤ S ^ 2 := by
    have := mul_self_le_mul_self (by positivity : (0:ℚ) ≤ 2 * |e|) he
    have habs : |e| * |e| = e ^ 2 := by
      rw [← abs_mul, abs_mul_self, sq]
    nlinarith [habs]
  nlinarith [sq_nonneg (dJ + 2 * e), sq_nonneg (dJ - 2 * e), sq_nonneg da, sq_nonneg db]

theorem J_spread_nonneg (p : PaletteData) (hne : p.cam16 ≠ []) :
    0 ≤ J_spread p := by
  unfold J_spread
  apply div_nonneg _ (by positivity)
  have hmape : p.cam16.map CAM16UCS.J ≠ [] := by
    simpa using hne
  obtain ⟨m, hm⟩ := WithTop.ne_top_iff_exists.mp
    (List.minimum_ne_top_of_ne_nil hmape)
  have hM : (p.cam16.map CAM16UCS.J).maximum ≠ ⊥ := by
    intro hc
    exact hmape (List.maximum_eq_bot.mp hc)
  obtain ⟨M, hMe⟩ := Ne.bot_lt hM |> fun _ => WithBot.ne_bot_iff_exists.mp hM
  have hmmem : m ∈ p.cam16.map CAM16UCS.J := List.minimum_mem hm.symm
  have hle : (m : WithBot ℚ) ≤ (p.cam16.map CAM16UCS.J).maximum :=
    List.le_maximum_of_mem' hmmem
  rw [← hm, ← hMe]
  rw [← hMe] at hle
  have : m ≤ M := by exact_mod_cast hle
  simp [this]

/-- C4 (amended): the dither identity holds under the separation the
spec's parenthetical implicitly assumes: if every two distinct palette
entries are more than `J_spread` apart in CAM16-UCS (stated on the squared
distances), then for every threshold structure with values in `[0, 1]` (every
generated matrix, by the C9 analysis) the ditherer maps a pixel equal to
palette entry `k` to `rgb[k]`, and keeps `None` pixels `None`.  `sq` models
`f32::sqrt`: strictly monotone on non-negatives and finite. -/
theorem C4_dither_identity_separated (sq : ℚ → ℚ) (p : PaletteData)
    (thr : ℕ → ℕ → ℚ) (input : List (List (Option CAM16UCS)))
    (hlen : p.cam16.length = p.n) (hn : 1 ≤ p.n)
    (hmono : StrictMonoOn sq {q : ℚ | 0 ≤ q})
    (hfin : ∀ q, 0 ≤ q → sq q < FMAX)
    (hthr : ∀ x y, 0 ≤ thr x y ∧ thr x y ≤ 1)
    (hsep : ∀ i j, i < p.n → j < p.n → i ≠ j →
      (J_spread p) ^ 2 < CAM16UCS.dist2 (p.cam16.getD i ⟨0, 0, 0, 0⟩)
        (p.cam16.getD j ⟨0, 0, 0, 0⟩)) :
    ∀ j i, j < input.length → i < (input.getD 0 []).length →
      (((input.getD j []).getD i none = none →
        ((ditherImage sq p thr input).getD j []).getD i none = none) ∧
      (∀ k, k < p.n →
        (input.getD j []).getD i none = some (p.cam16.getD k ⟨0, 0, 0, 0⟩) →
        ((ditherImage sq p thr input).getD j []).getD i none =
          some (p.rgb.getD k ⟨0, 0, 0⟩))) := by
  intro j i hj hi
  have hout : ((ditherImage sq p thr input).getD j []).getD i none =
      match (input.getD j []).getD i none with
      | none => none
      | some c => some (Palette.nearest sq p
          ⟨c.J + J_spread p * (thr i j - 1/2), c.a, c.b, c.C⟩) := by
    unfold ditherImage
    rw [getD_map_range _ _ _ _ hj, getD_map_range _ _ _ _ hi]
  constructor
  · intro hnone
    rw [hout, hnone]
  · intro k hk hsome
    rw [hout, hsome]
    show some _ = some _
    congr 1
    have hne : p.cam16 ≠ [] := by
      intro hc
      rw [hc] at hlen
      simp at hlen
      omega
    have hS : 0 ≤ J_spread p := J_spread_nonneg p hne
    have hjit : 2 * |J_spread p * (thr i j - 1/2)| ≤ J_spread p := by
      have ht := hthr i j
      have habs : |thr i j - 1/2| ≤ 1/2 :=
        abs_le.mpr ⟨by linarith [ht.1], by linarith [ht.2]⟩
      rw [abs_mul, abs_of_nonneg hS]
      nlinarith
    apply nearest_eq_of_strict sq p _ k hk
    · exact hfin _ (CAM16UCS.dist2_nonneg _ _)
    · intro m hm hmk
      apply hmono (CAM16UCS.dist2_nonneg _ _) (CAM16UCS.dist2_nonneg _ _)
      have hd2k : CAM16UCS.dist2
          ⟨(p.cam16.getD k ⟨0, 0, 0, 0⟩).J + J_spread p * (thr i j - 1/2),
            (p.cam16.getD k ⟨0, 0, 0, 0⟩).a, (p.cam16.getD k ⟨0, 0, 0, 0⟩).b,
            (p.cam16.getD k ⟨0, 0, 0, 0⟩).C⟩ (p.cam16.getD k ⟨0, 0, 0, 0⟩) =
          (J_spread p * (thr i j - 1/2)) ^ 2 := by
        simp [CAM16UCS.dist2]
      have hd2m : CAM16UCS.dist2
          ⟨(p.cam16.getD k ⟨0, 0, 0, 0⟩).J + J_spread p * (thr i j - 1/2),
            (p.cam16.getD k ⟨0, 0, 0, 0⟩).a, (p.cam16.getD k ⟨0, 0, 0, 0⟩).b,
            (p.cam16.getD k ⟨0, 0, 0, 0⟩).C⟩ (p.cam16.getD m ⟨0, 0, 0, 0⟩) =
          (((p.cam16.getD k ⟨0, 0, 0, 0⟩).J - (p.cam16.getD m ⟨0, 0, 0, 0⟩).J) +
            J_spread p * (thr i j - 1/2)) ^ 2 +
          ((p.cam16.getD k ⟨0, 0, 0, 0⟩).a - (p.cam16.getD m ⟨0, 0, 0, 0⟩).a) ^ 2 +
          ((p.cam16.getD k ⟨0, 0, 0, 0⟩).b - (p.cam16.getD m ⟨0, 0, 0, 0⟩).b) ^ 2 := by
        simp [CAM16UCS.dist2]
        ring
      rw [hd2k, hd2m]
      apply jitter_sep (J_spread p) _ _ _ _ hjit
      have hd2km := hsep k m hk hm (fun hh => hmk hh.symm)
      calc (J_spread p) ^ 2
          < CAM16UCS.dist2 (p.cam16.getD k ⟨0, 0, 0, 0⟩) (p.cam16.getD m ⟨0, 0, 0, 0⟩) :=
            hd2km
        _ = _ := by simp [CAM16UCS.dist2]

/-- C4 (counterexample): the dither identity fails in general.  Palette
of three colours at CAM16 `J = 0, 9, 30` (all achromatic): `J_spread =
(30 − 0)/3 = 10`; with `DitheringMethod::None` (= `Bayer(0)`, threshold
constantly `0`) the jitter is `10·(0 − 1/2) = −5`, which moves the pixel
sitting exactly at entry `1` (`J = 9`) to `J = 4` — strictly nearer to entry
`0` (`J = 0`, distance `4`) than to entry `1` (distance `5`).  The output
pixel is `rgb[0]`, not `rgb[1]`: the image is not reproduced. -/
theorem C4_counterexample :
    ditherImage id
        ⟨3, [⟨0, 0, 0⟩, ⟨1, 1, 1⟩, ⟨2, 2, 2⟩],
          [⟨0, 0, 0, 0⟩, ⟨9, 0, 0, 0⟩, ⟨30, 0, 0, 0⟩]⟩
        (fun x y => (bayerMatrix 0).at x y)
        [[some ⟨9, 0, 0, 0⟩]] = [[some ⟨0, 0, 0⟩]] ∧
    (⟨9, 0, 0, 0⟩ : CAM16UCS) =
      ([⟨0, 0, 0, 0⟩, ⟨9, 0, 0, 0⟩, ⟨30, 0, 0, 0⟩] : List CAM16UCS).getD 1 ⟨0, 0, 0, 0⟩ ∧
    (⟨0, 0, 0⟩ : RGB255) ≠
      ([⟨0, 0, 0⟩, ⟨1, 1, 1⟩, ⟨2, 2, 2⟩] : List RGB255).getD 1 ⟨0, 0, 0⟩ := by
  refine ⟨?_, rfl, by decide⟩
  have hJ : J_spread ⟨3, [⟨0, 0, 0⟩, ⟨1, 1, 1⟩, ⟨2, 2, 2⟩],
      [⟨0, 0, 0, 0⟩, ⟨9, 0, 0, 0⟩, ⟨30, 0, 0, 0⟩]⟩ = 10 := by
    have hmax : (([⟨0, 0, 0, 0⟩, ⟨9, 0, 0, 0⟩, ⟨30, 0, 0, 0⟩] : List CAM16UCS).map
        CAM16UCS.J).maximum = ((30 : ℚ) : WithBot ℚ) := by decide
    have hmin : (([⟨0, 0, 0, 0⟩, ⟨9, 0, 0, 0⟩, ⟨30, 0, 0, 0⟩] : List CAM16UCS).map
        CAM16UCS.J).minimum = ((0 : ℚ) : WithTop ℚ) := by decide
    unfold J_spread
    rw [hmax, hmin]
    rw [WithBot.unbot'_coe, WithTop.untop'_coe]
    norm_num
  have hthr : (bayerMatrix 0).at 0 0 = 0 := rfl
  have hnear : Palette.nearest id
      ⟨3, [⟨0, 0, 0⟩, ⟨1, 1, 1⟩, ⟨2, 2, 2⟩],
        [⟨0, 0, 0, 0⟩, ⟨9, 0, 0, 0⟩, ⟨30, 0, 0, 0⟩]⟩ ⟨4, 0, 0, 0⟩ = ⟨0, 0, 0⟩ := by
    unfold Palette.nearest
    have hr3 : List.range 3 = [0, 1, 2] := rfl
    rw [hr3, argminLoop_cons, if_pos (by norm_num [CAM16UCS.dist2, FMAX]),
      argminLoop_cons, if_neg (by norm_num [CAM16UCS.dist2]),
      argminLoop_cons, if_neg (by norm_num [CAM16UCS.dist2]), argminLoop_nil]
    rfl
  have hcell : ditherImage id
      ⟨3, [⟨0, 0, 0⟩, ⟨1, 1, 1⟩, ⟨2, 2, 2⟩],
        [⟨0, 0, 0, 0⟩, ⟨9, 0, 0, 0⟩, ⟨30, 0, 0, 0⟩]⟩
      (fun x y => (bayerMatrix 0).at x y) [[some ⟨9, 0, 0, 0⟩]] =
      [[some (Palette.nearest id
        ⟨3, [⟨0, 0, 0⟩, ⟨1, 1, 1⟩, ⟨2, 2, 2⟩],
          [⟨0, 0, 0, 0⟩, ⟨9, 0, 0, 0⟩, ⟨30, 0, 0, 0⟩]⟩
        ⟨9 + J_spread ⟨3, [⟨0, 0, 0⟩, ⟨1, 1, 1⟩, ⟨2, 2, 2⟩],
            [⟨0, 0, 0, 0⟩, ⟨9, 0, 0, 0⟩, ⟨30, 0, 0, 0⟩]⟩ *
          ((bayerMatrix 0).at 0 0 - 1/2), 0, 0, 0⟩)]] := rfl
  rw [hcell, hthr, hJ, show (9 : ℚ) + 10 * (0 - 1/2) = 4 from by norm_num, hnear]

/-- Witness for C4's amended statement: a separated two-colour palette
(black/white model points, distance `100 > J_spread = 50`), constant-zero
threshold, and the bounded square-root model `q ↦ q/(1+q)`; the pixel at
entry `1` is reproduced as `rgb[1]`. -/
theorem C4_dither_identity_witness :
    ((ditherImage (fun q => q / (1 + q))
        ⟨2, [⟨0, 0, 0⟩, ⟨255, 255, 255⟩], [⟨0, 0, 0, 0⟩, ⟨100, 0, 0, 0⟩]⟩
        (fun _ _ => 0) [[some ⟨100, 0, 0, 0⟩]]).getD 0 []).getD 0 none =
      some (⟨255, 255, 255⟩ : RGB255) := by
  have hJ2 : J_spread ⟨2, [⟨0, 0, 0⟩, ⟨255, 255, 255⟩],
      [⟨0, 0, 0, 0⟩, ⟨100, 0, 0, 0⟩]⟩ = 50 := by
    have hmax : (([⟨0, 0, 0, 0⟩, ⟨100, 0, 0, 0⟩] : List CAM16UCS).map
        CAM16UCS.J).maximum = ((100 : ℚ) : WithBot ℚ) := by decide
    have hmin : (([⟨0, 0, 0, 0⟩, ⟨100, 0, 0, 0⟩] : List CAM16UCS).map
        CAM16UCS.J).minimum = ((0 : ℚ) : WithTop ℚ) := by decide
    unfold J_spread
    rw [hmax, hmin, WithBot.unbot'_coe, WithTop.untop'_coe]
    norm_num
  have h := C4_dither_identity_separated (fun q => q / (1 + q))
    ⟨2, [⟨0, 0, 0⟩, ⟨255, 255, 255⟩], [⟨0, 0, 0, 0⟩, ⟨100, 0, 0, 0⟩]⟩
    (fun _ _ => 0) [[some ⟨100, 0, 0, 0⟩]]
    (by decide) (by decide)
    (by
      intro a ha b hb hab
      simp only [Set.mem_setOf_eq] at ha hb
      rw [div_lt_div_iff (by linarith) (by linarith)]
      nlinarith)
    (by
      intro q hq
      have h1 : q / (1 + q) < 1 := by
        rw [div_lt_one (by linarith)]
        linarith
      have h2 : (1:ℚ) < FMAX := by norm_num [FMAX]
      linarith)
    (by
      intro x y
      norm_num)
    (by
      intro i j hi hj hne
      rw [hJ2]
      interval_cases i <;> interval_cases j <;>
        first
        | exact absurd rfl hne
        | norm_num [CAM16UCS.dist2])
  have hcell := (h 0 0 (by decide) (by decide)).2 1 (by decide) rfl
  exact hcell

/-! ## Useful mixes (`palette.rs`) -/

theorem drop_range (k n : ℕ) (hk : k ≤ n) :
    (List.range n).drop k = List.range' k (n - k) := by
  rw [List.range_eq_range']
  have h := List.range'_append 0 k (n - k) 1
  rw [show (0 + 1 * k) = k by ring, show (n - k + k) = n from Nat.sub_add_cancel hk] at h
  rw [← h, List.drop_append_of_le_length (by simp)]
  simp

theorem mem_pairIndices (n : ℕ) (p : ℕ × ℕ) :
    p ∈ pairIndices n ↔ p.1 < p.2 ∧ p.2 < n := by
  obtain ⟨a, b⟩ := p
  unfold pairIndices
  simp only [List.mem_flatMap, List.mem_map, List.mem_range]
  constructor
  · rintro ⟨i, hi, j, hj, heq⟩
    obtain ⟨rfl, rfl⟩ : i = a ∧ j = b := by
      exact ⟨congrArg Prod.fst heq, congrArg Prod.snd heq⟩
    rcases le_or_lt (i + 1) n with hle | hlt
    · rw [drop_range _ _ hle] at hj
      have := List.mem_range'_1.mp hj
      constructor <;> omega
    · rw [List.drop_eq_nil_of_le (by simpa using hlt.le)] at hj
      cases hj
  · rintro ⟨hab, hbn⟩
    refine ⟨a, by omega, b, ?_, rfl⟩
    rw [drop_range _ _ (by omega)]
    exact List.mem_range'_1.mpr ⟨by omega, by omega⟩

theorem nodup_pairIndices (n : ℕ) : (pairIndices n).Nodup := by
  unfold pairIndices
  rw [List.nodup_flatMap]
  constructor
  · intro i _
    apply List.Nodup.map
    · intro a b hab
      simpa using hab
    · exact ((List.nodup_range n).sublist (List.drop_sublist _ _))
  · have hpw : (List.range n).Pairwise (· ≠ ·) :=
      (List.pairwise_lt_range n).imp fun h => Nat.ne_of_lt h
    apply hpw.imp
    intro i j hij
    intro q hqi hqj
    rcases List.mem_map.mp hqi with ⟨x, _, rfl⟩
    rcases List.mem_map.mp hqj with ⟨y, _, heq⟩
    exact hij (congrArg Prod.fst heq).symm

theorem length_pairIndices (n : ℕ) :
    (pairIndices n).length = n * (n - 1) / 2 := by
  unfold pairIndices
  rw [List.length_flatMap]
  have hmap : (List.range n).map
      (List.length ∘ fun i => (((List.range n).drop (i + 1)).map fun j => ((i : ℕ), j))) =
      (List.range n).map (fun i => n - 1 - i) := by
    apply List.map_congr_left
    intro i hi
    simp only [Function.comp_apply, List.length_map, List.length_drop, List.length_range]
    omega
  rw [hmap]
  have hsum : ((List.range n).map fun i => n - 1 - i).sum =
      ∑ i ∈ Finset.range n, (n - 1 - i) := rfl
  rw [hsum, Finset.sum_range_reflect (fun i => i) n]
  exact Finset.sum_range_id n

/-- `score_added` (inside `Palette::useful_mixes`, `palette.rs`): the minimum
distance from `x` to a palette entry, a running minimum started at `f32::MAX`;
`sq` models `f32::sqrt` applied to the exact squared distance. -/
def score_added (sq : ℚ → ℚ) (cam16 : List CAM16UCS) (x : CAM16UCS) : ℚ :=
  cam16.foldl
    (fun m y => if sq (CAM16UCS.dist2 x y) < m then sq (CAM16UCS.dist2 x y) else m) FMAX

/-- `mix` (inside `Palette::useful_mixes`, `palette.rs`): the component-wise
midpoint of entries `i` and `j` (out-of-range reads modelled by `getD`). -/
def mixPair (cam16 : List CAM16UCS) (i j : ℕ) : CAM16UCS :=
  ⟨(((cam16.getD i ⟨0, 0, 0, 0⟩).J + (cam16.getD j ⟨0, 0, 0, 0⟩).J) / 2),
   (((cam16.getD i ⟨0, 0, 0, 0⟩).a + (cam16.getD j ⟨0, 0, 0, 0⟩).a) / 2),
   (((cam16.getD i ⟨0, 0, 0, 0⟩).b + (cam16.getD j ⟨0, 0, 0, 0⟩).b) / 2),
   (((cam16.getD i ⟨0, 0, 0, 0⟩).C + (cam16.getD j ⟨0, 0, 0, 0⟩).C) / 2)⟩

/-- The `while mixes.len() < max` loop of `Palette::useful_mixes`
(`palette.rs`), with the remaining iteration count as explicit fuel:
sort ascending by score (stable, as Rust's `sort_by_key`; modelled by
`insertionSort`), take the last entry (`scores.last().unwrap()` — `none`
models the panic on an empty vector), push its pair, drop it from the list
(`retain`), and add to every remaining score the distance from that pair's
mix to the chosen mix. -/
def usefulMixesGo (sq : ℚ → ℚ) (cam16 : List CAM16UCS) :
    ℕ → List (ℚ × (ℕ × ℕ)) → List (ℕ × ℕ) → Option (List (ℕ × ℕ))
  | 0, _, mixes => some mixes
  | k + 1, scores, mixes =>
    match (scores.insertionSort fun s t => s.1 ≤ t.1).getLast? with
    | none => none
    | some best =>
      usefulMixesGo sq cam16 k
        (((scores.insertionSort fun s t => s.1 ≤ t.1).filter fun s => s.2 ≠ best.2).map
          fun s => (s.1 + sq (CAM16UCS.dist2 (mixPair cam16 s.2.1 s.2.2)
            (mixPair cam16 best.2.1 best.2.2)), s.2))
        (mixes ++ [best.2])

theorem usefulMixesGo_succ (sq : ℚ → ℚ) (cam16 : List CAM16UCS) (k : ℕ)
    (scores : List (ℚ × (ℕ × ℕ))) (mixes : List (ℕ × ℕ)) (best : ℚ × (ℕ × ℕ))
    (hbest : (scores.insertionSort fun s t => s.1 ≤ t.1).getLast? = some best) :
    usefulMixesGo sq cam16 (k + 1) scores mixes =
      usefulMixesGo sq cam16 k
        (((scores.insertionSort fun s t => s.1 ≤ t.1).filter fun s => s.2 ≠ best.2).map
          fun s => (s.1 + sq (CAM16UCS.dist2 (mixPair cam16 s.2.1 s.2.2)
            (mixPair cam16 best.2.1 best.2.2)), s.2))
        (mixes ++ [best.2]) := by
  conv_lhs => unfold usefulMixesGo
  rw [hbest]

/-- `Palette::useful_mixes` (`palette.rs`): cap `max` at `n(n−1)/2`, score
every index pair `i < j`, and run the selection loop starting from no
chosen mixes. -/
def usefulMixes (sq : ℚ → ℚ) (cam16 : List CAM16UCS) (max : ℕ) :
    Option (List (ℕ × ℕ)) :=
  let n := cam16.length
  usefulMixesGo sq cam16 (Nat.min max (n * (n - 1) / 2))
    ((pairIndices n).map fun p => (score_added sq cam16 (mixPair cam16 p.1 p.2), p)) []

theorem usefulMixesGo_spec (sq : ℚ → ℚ) (cam16 : List CAM16UCS) :
    ∀ (k : ℕ) (scores : List (ℚ × (ℕ × ℕ))) (mixes : List (ℕ × ℕ)),
      k ≤ scores.length →
      (scores.map Prod.snd).Nodup →
      mixes.Nodup →
      (∀ p ∈ scores.map Prod.snd, p ∉ mixes) →
      (∀ p ∈ scores.map Prod.snd, p.1 < p.2 ∧ p.2 < cam16.length) →
      (∀ p ∈ mixes, p.1 < p.2 ∧ p.2 < cam16.length) →
      ∃ l, usefulMixesGo sq cam16 k scores mixes = some l ∧
        l.length = mixes.length + k ∧ l.Nodup ∧
        ∀ p ∈ l, p.1 < p.2 ∧ p.2 < cam16.length := by
  intro k
  induction k with
  | zero =>
    intro scores mixes _ _ hmnd _ _ hmb
    exact ⟨mixes, rfl, by simp, hmnd, hmb⟩
  | succ k ih =>
    intro scores mixes hk hsnd hmnd hdisj hsb hmb
    have hperm : List.Perm (scores.insertionSort fun s t => s.1 ≤ t.1) scores :=
      List.perm_insertionSort _ _
    have hne : (scores.insertionSort fun s t => s.1 ≤ t.1) ≠ [] := by
      intro h
      have := hperm.length_eq
      rw [h] at this
      simp at this
      omega
    obtain ⟨best, hbest⟩ :
        ∃ b, (scores.insertionSort fun s t => s.1 ≤ t.1).getLast? = some b := by
      cases h : (scores.insertionSort fun s t => s.1 ≤ t.1).getLast? with
      | none => exact absurd (List.getLast?_isSome.mpr hne) (by simp [h])
      | some b => exact ⟨b, rfl⟩
    set sorted := scores.insertionSort fun s t => s.1 ≤ t.1 with hsorted
    have hsplit : sorted.dropLast ++ [best] = sorted :=
      List.dropLast_append_getLast? best hbest
    have hsortnd : (sorted.map Prod.snd).Nodup := (hperm.map Prod.snd).nodup_iff.mpr hsnd
    have hsplitmap : sorted.dropLast.map Prod.snd ++ [best.2] = sorted.map Prod.snd := by
      rw [← hsplit]
      simp
    have hdlnd : (sorted.dropLast.map Prod.snd).Nodup ∧ best.2 ∉ sorted.dropLast.map Prod.snd := by
      rw [← hsplitmap, List.nodup_append] at hsortnd
      exact ⟨hsortnd.1, fun h => hsortnd.2.2 h (by simp)⟩
    have hfilter : (sorted.filter fun s => s.2 ≠ best.2) = sorted.dropLast := by
      conv_lhs => rw [← hsplit]
      rw [List.filter_append]
      have h1 : (sorted.dropLast.filter fun s => s.2 ≠ best.2) = sorted.dropLast := by
        rw [List.filter_eq_self]
        intro a ha
        simp only [ne_eq, decide_not, Bool.not_eq_eq_eq_not, Bool.not_true, decide_eq_false_iff_not]
        intro hcontra
        exact hdlnd.2 (hcontra ▸ List.mem_map_of_mem Prod.snd ha)
      have h2 : (([best] : List (ℚ × (ℕ × ℕ))).filter fun s => s.2 ≠ best.2) = [] := by
        simp
      rw [h1, h2, List.append_nil]
    have hbestmem : best.2 ∈ scores.map Prod.snd := by
      have : best ∈ sorted := List.mem_of_mem_getLast? hbest
      exact List.mem_map_of_mem Prod.snd (hperm.mem_iff.mp this)
    set scores' := ((sorted.filter fun s => s.2 ≠ best.2).map fun s =>
      (s.1 + sq (CAM16UCS.dist2 (mixPair cam16 s.2.1 s.2.2)
        (mixPair cam16 best.2.1 best.2.2)), s.2)) with hscores'
    have hsnd' : scores'.map Prod.snd = sorted.dropLast.map Prod.snd := by
      rw [hscores', hfilter, List.map_map]
      rfl
    have hsub : ∀ p ∈ scores'.map Prod.snd, p ∈ scores.map Prod.snd := by
      intro p hp
      rw [hsnd'] at hp
      have : p ∈ sorted.map Prod.snd := by
        rw [← hsplitmap]
        exact List.mem_append_left _ hp
      exact (hperm.map Prod.snd).mem_iff.mp this
    have hlen' : scores'.length = sorted.dropLast.length := by
      rw [hscores', List.length_map, hfilter]
    have hlensort : sorted.length = scores.length := hperm.length_eq
    have hlendrop : sorted.dropLast.length = scores.length - 1 := by
      rw [List.length_dropLast, hlensort]
    refine ?_
    obtain ⟨l, hl, hlen, hnd, hb⟩ := ih scores' (mixes ++ [best.2])
      (by rw [hlen', hlendrop]; omega)
      (by rw [hsnd']; exact hdlnd.1)
      (by
        rw [List.nodup_append]
        exact ⟨hmnd, List.nodup_singleton _,
          fun a ha hb => by simp at hb; subst hb; exact hdisj _ hbestmem ha⟩)
      (by
        intro p hp hmem
        rcases List.mem_append.mp hmem with h | h
        · exact hdisj p (hsub p hp) h
        · simp at h
          subst h
          exact hdlnd.2 (hsnd' ▸ hp))
      (fun p hp => hsb p (hsub p hp))
      (by
        intro p hp
        rcases List.mem_append.mp hp with h | h
        · exact hmb p h
        · simp at h
          subst h
          exact hsb _ hbestmem)
    refine ⟨l, ?_, ?_, hnd, hb⟩
    · rw [usefulMixesGo_succ sq cam16 k scores mixes best (hsorted ▸ hbest)]
      exact hl
    · rw [hlen]
      simp
      omega

/-- C10: for every palette (abstract `sqrt`) with at least two entries and
every requested count `max`, `useful_mixes(max)` terminates without
panicking (`scores.last().unwrap()` never sees an empty vector) and returns
exactly `min(max, n(n−1)/2)` pairwise-distinct index pairs `(i, j)` with
`i < j < n`. -/
theorem C10_useful_mixes (sq : ℚ → ℚ) (cam16 : List CAM16UCS) (max : ℕ)
    (hn : 2 ≤ cam16.length) :
    ∃ l, usefulMixes sq cam16 max = some l ∧
      l.length = Nat.min max (cam16.length * (cam16.length - 1) / 2) ∧
      l.Nodup ∧
      ∀ p ∈ l, p.1 < p.2 ∧ p.2 < cam16.length := by
  unfold usefulMixes
  set n := cam16.length with hn'
  have hmapsnd : (((pairIndices n).map fun p =>
      (score_added sq cam16 (mixPair cam16 p.1 p.2), p)).map Prod.snd) = pairIndices n := by
    rw [List.map_map]
    exact List.map_id _
  obtain ⟨l, hl, hlen, hnd, hb⟩ := usefulMixesGo_spec sq cam16
    (Nat.min max (n * (n - 1) / 2))
    ((pairIndices n).map fun p => (score_added sq cam16 (mixPair cam16 p.1 p.2), p)) []
    (by
      rw [List.length_map, length_pairIndices]
      exact Nat.min_le_right _ _)
    (by rw [hmapsnd]; exact nodup_pairIndices n)
    (List.nodup_nil)
    (by intro p _ h; cases h)
    (by
      intro p hp
      rw [hmapsnd] at hp
      exact (mem_pairIndices n p).mp hp)
    (by intro p h; cases h)
  exact ⟨l, hl, by simpa using hlen, hnd, hb⟩

theorem C10_useful_mixes_witness :
    ∃ l, usefulMixes id [⟨0, 0, 0, 0⟩, ⟨1, 0, 0, 0⟩] 1 = some l ∧
      l.length = Nat.min 1 (([⟨0, 0, 0, 0⟩, ⟨1, 0, 0, 0⟩] : List CAM16UCS).length *
        (([⟨0, 0, 0, 0⟩, ⟨1, 0, 0, 0⟩] : List CAM16UCS).length - 1) / 2) ∧
      l.Nodup ∧
      ∀ p ∈ l, p.1 < p.2 ∧ p.2 < ([⟨0, 0, 0, 0⟩, ⟨1, 0, 0, 0⟩] : List CAM16UCS).length :=
  C10_useful_mixes id [⟨0, 0, 0, 0⟩, ⟨1, 0, 0, 0⟩] 1 (by decide)

/-! ## Spectrum computation (`cache.rs`) -/

/-- Non-finite-propagating f32 value: `none` models NaN (or an infinity). -/
def fdivF : Option ℚ → Option ℚ → Option ℚ
  | some a, some b => if b = 0 then none else some (a / b)
  | _, _ => none

/-- `f32::interpolate` (external crate; modelled per the spec as the linear
mix `a·(1−t) + b·t`), propagating a non-finite parameter. -/
def lerpF : Option ℚ → Option ℚ → Option ℚ → Option ℚ
  | some a, some b, some t => some (a * (1 - t) + b * t)
  | _, _, _ => none

/-- `BigCacher::compute_spectrum` (`cache.rs`): 800 samples at
`x = i/799`; if `x ≤ ratio` the monochromatic branch evaluates
`wl2cam` at the interpolated wavelength `lerp(4100, 6650, x/ratio)`
(`Wavelength::MIN`/`MAX`), otherwise the endpoint mix
`CAM16UCS::mix(max, min, (x−ratio)/(1−ratio))`.  The composite
`CAM16UCS::of(CIEXYZ::from(Wavelength::new(·)))` is the abstract parameter
`wl2cam`, returning `none` exactly on non-finite output. -/
def computeSpectrum (wl2cam : Option ℚ → Option CAM16UCS) (ratio : ℚ) :
    List (Option CAM16UCS) :=
  let n : ℕ := 800
  let mn := wl2cam (some 4100)
  let mx := wl2cam (some 6650)
  (List.range n).map fun (i : ℕ) =>
    let x : ℚ := (i : ℚ) / ((n : ℚ) - 1)
    if x ≤ ratio then
      wl2cam (lerpF (some 4100) (some 6650) (fdivF (some x) (some ratio)))
    else
      match mx, mn with
      | some a, some b => some (CAM16UCS.mix a b ((x - ratio) / (1 - ratio)))
      | _, _ => none

/-- C3: at `ratio = 0` the first sample divides `0/0`, giving a NaN
wavelength and a NaN CAM16 sample — it lies on no point of the linear
endpoint mix; every other sample `1 ≤ i < 800` equals
`mix(max, min, i/799)` exactly, and there are 800 samples. -/
theorem C3_compute_spectrum_ratio0 (wl2cam : Option ℚ → Option CAM16UCS)
    (mn mx : CAM16UCS)
    (hnan : wl2cam none = none)
    (hmin : wl2cam (some 4100) = some mn)
    (hmax : wl2cam (some 6650) = some mx) :
    (computeSpectrum wl2cam 0).length = 800 ∧
    (computeSpectrum wl2cam 0).getD 0 (some ⟨0, 0, 0, 0⟩) = none ∧
    (∀ t : ℚ, (computeSpectrum wl2cam 0).getD 0 (some ⟨0, 0, 0, 0⟩) ≠
      some (CAM16UCS.mix mx mn t)) ∧
    ∀ i : ℕ, 1 ≤ i → i < 800 →
      (computeSpectrum wl2cam 0).getD i none =
        some (CAM16UCS.mix mx mn ((i : ℚ) / 799)) := by
  have h0 : (computeSpectrum wl2cam 0).getD 0 (some ⟨0, 0, 0, 0⟩) = none := by
    unfold computeSpectrum
    rw [getD_map_range 800 0 _ _ (by norm_num)]
    simp only [Nat.cast_zero, zero_div]
    rw [if_pos le_rfl]
    simp [fdivF, lerpF, hnan]
  refine ⟨by simp [computeSpectrum], h0, ?_, ?_⟩
  · intro t
    rw [h0]
    simp
  · intro i h1 h800
    unfold computeSpectrum
    rw [getD_map_range 800 i _ _ h800]
    have hipos : (0 : ℚ) < (i : ℚ) / (800 - 1) := by
      apply div_pos
      · exact_mod_cast h1
      · norm_num
    rw [if_neg (by push_neg; exact hipos)]
    rw [hmax, hmin]
    norm_num

theorem C3_compute_spectrum_ratio0_witness :
    (computeSpectrum (fun o => o.map fun w => ⟨w, 0, 0, 0⟩) 0).length = 800 ∧
    (computeSpectrum (fun o => o.map fun w => ⟨w, 0, 0, 0⟩) 0).getD 0
      (some ⟨0, 0, 0, 0⟩) = none ∧
    (∀ t : ℚ, (computeSpectrum (fun o => o.map fun w => ⟨w, 0, 0, 0⟩) 0).getD 0
      (some ⟨0, 0, 0, 0⟩) ≠
      some (CAM16UCS.mix ⟨6650, 0, 0, 0⟩ ⟨4100, 0, 0, 0⟩ t)) ∧
    ∀ i : ℕ, 1 ≤ i → i < 800 →
      (computeSpectrum (fun o => o.map fun w => ⟨w, 0, 0, 0⟩) 0).getD i none =
        some (CAM16UCS.mix ⟨6650, 0, 0, 0⟩ ⟨4100, 0, 0, 0⟩ ((i : ℚ) / 799)) :=
  C3_compute_spectrum_ratio0 (fun o => o.map fun w => ⟨w, 0, 0, 0⟩)
    ⟨4100, 0, 0, 0⟩ ⟨6650, 0, 0, 0⟩ rfl rfl rfl

/-! ## Drawing primitives (`graph.rs`) -/

/-- `ImageGraph` (`graph.rs`): a `w × h` pixel buffer; the buffer is modelled
as a total function so that clipping is expressed as "out-of-range entries
never change". -/
structure ImageGraph (α : Type u) where
  w : ℕ
  h : ℕ
  buf : ℕ → ℕ → α

namespace ImageGraph

variable {α : Type u}

/-- `ImageGraph::put_pixel` (`graph.rs`): return on negative coordinates,
cast to unsigned, write only if `x < w && y < h`. -/
def putPixel (g : ImageGraph α) (x y : ℤ) (c : α) : ImageGraph α :=
  if x < 0 ∨ y < 0 then g
  else if x.toNat < g.w ∧ y.toNat < g.h then
    { g with buf := fun i j => if i = x.toNat ∧ j = y.toNat then c else g.buf i j }
  else g

/-- `g'` agrees with `g` on dimensions and on every pixel outside the
`w × h` canvas. -/
def SameOutside (g g' : ImageGraph α) : Prop :=
  g'.w = g.w ∧ g'.h = g.h ∧
  ∀ i j : ℕ, ¬(i < g.w ∧ j < g.h) → g'.buf i j = g.buf i j

theorem sameOutside_rfl (g : ImageGraph α) : SameOutside g g :=
  ⟨rfl, rfl, fun _ _ _ => rfl⟩

theorem sameOutside_trans {g g' g'' : ImageGraph α}
    (h1 : SameOutside g g') (h2 : SameOutside g' g'') : SameOutside g g'' := by
  obtain ⟨hw1, hh1, hb1⟩ := h1
  obtain ⟨hw2, hh2, hb2⟩ := h2
  refine ⟨hw2.trans hw1, hh2.trans hh1, fun i j hij => ?_⟩
  rw [hb2 i j (by rw [hw1, hh1]; exact hij), hb1 i j hij]

theorem putPixel_sameOutside (g : ImageGraph α) (x y : ℤ) (c : α) :
    SameOutside g (putPixel g x y c) := by
  unfold putPixel
  split
  · exact sameOutside_rfl g
  · split
    · next hin =>
      refine ⟨rfl, rfl, fun i j hij => ?_⟩
      simp only
      rw [if_neg]
      rintro ⟨rfl, rfl⟩
      exact hij hin
    · exact sameOutside_rfl g

theorem foldl_sameOutside {β : Type} (f : ImageGraph α → β → ImageGraph α)
    (hf : ∀ g b, SameOutside g (f g b)) (l : List β) :
    ∀ g : ImageGraph α, SameOutside g (l.foldl f g) := by
  induction l with
  | nil => exact fun g => sameOutside_rfl g
  | cons b l ih =>
    intro g
    exact sameOutside_trans (hf g b) (ih (f g b))

/-- `ImageGraph::frame` (`graph.rs`). -/
def frame (g : ImageGraph α) (x0 y0 w h : ℤ) (c : α) : ImageGraph α :=
  let g1 := (intRange x0 (x0 + w)).foldl
    (fun g x => putPixel (putPixel g x y0 c) x (y0 + h - 1) c) g
  (intRange y0 (y0 + h)).foldl
    (fun g y => putPixel (putPixel g x0 y c) (x0 + w - 1) y c) g1

/-- `ImageGraph::block` (`graph.rs`). -/
def block (g : ImageGraph α) (x0 y0 w h : ℤ) (c : α) : ImageGraph α :=
  (intRange x0 (x0 + w)).foldl
    (fun g x => (intRange y0 (y0 + h)).foldl (fun g y => putPixel g x y c) g) g

/-- `ImageGraph::dither` (`graph.rs`): a 2-colour checkerboard,
`k = (x − x0 + y − y0) % 2` (the dividend is non-negative, so Rust's `%`
agrees with `Int.emod`). -/
def ditherRect (g : ImageGraph α) (x0 y0 w h : ℤ) (c1 c2 : α) : ImageGraph α :=
  (intRange x0 (x0 + w)).foldl
    (fun g x => (intRange y0 (y0 + h)).foldl
      (fun g y => putPixel g x y (if (x - x0 + y - y0) % 2 = 0 then c1 else c2)) g) g

theorem frame_sameOutside (g : ImageGraph α) (x0 y0 w h : ℤ) (c : α) :
    SameOutside g (frame g x0 y0 w h c) := by
  unfold frame
  exact sameOutside_trans
    (foldl_sameOutside _ (fun g x => sameOutside_trans
      (putPixel_sameOutside g x y0 c) (putPixel_sameOutside _ x (y0 + h - 1) c)) _ g)
    (foldl_sameOutside _ (fun g y => sameOutside_trans
      (putPixel_sameOutside g x0 y c) (putPixel_sameOutside _ (x0 + w - 1) y c)) _ _)

theorem block_sameOutside (g : ImageGraph α) (x0 y0 w h : ℤ) (c : α) :
    SameOutside g (block g x0 y0 w h c) :=
  foldl_sameOutside _ (fun g x => foldl_sameOutside _
    (fun g y => putPixel_sameOutside g x y c) _ g) _ g

theorem ditherRect_sameOutside (g : ImageGraph α) (x0 y0 w h : ℤ) (c1 c2 : α) :
    SameOutside g (ditherRect g x0 y0 w h c1 c2) :=
  foldl_sameOutside _ (fun g x => foldl_sameOutside _
    (fun g y => putPixel_sameOutside g x y _) _ g) _ g

/-- `abs_diff` (`util.rs`). -/
def absDiff (x y : ℤ) : ℤ := if x < y then y - x else x - y

/-- `f32::round` idealised on exact rationals: round half away from zero. -/
def roundQ (q : ℚ) : ℤ := if q < 0 then -⌊-q + 1 / 2⌋ else ⌊q + 1 / 2⌋

/-- One dotted-line step (`graph.rs`): with `dotted = Some(dot)` the source
evaluates `dc % dot`, which panics when `dot = 0` (modelled `none`); the
running counter equals the loop index, and the dividend is non-negative,
so Rust's `%` agrees with `Int.emod`. -/
def dottedPut (g : ImageGraph α) (dotted : Option ℤ) (k x y : ℤ) (c : α) :
    Option (ImageGraph α) :=
  match dotted with
  | none => some (putPixel g x y c)
  | some dot =>
    if dot = 0 then none
    else if k % dot = 0 then some (putPixel g x y c) else some g

theorem sameOutside_putPixel {g g' : ImageGraph α} (h : SameOutside g g')
    (x y : ℤ) (c : α) : SameOutside g (putPixel g' x y c) :=
  sameOutside_trans h (putPixel_sameOutside g' x y c)

theorem dottedPut_spec (g : ImageGraph α) (dotted : Option ℤ) (k x y : ℤ) (c : α)
    (hd : dotted ≠ some 0) :
    ∃ g', dottedPut g dotted k x y c = some g' ∧ SameOutside g g' := by
  cases dotted with
  | none => exact ⟨_, rfl, putPixel_sameOutside g x y c⟩
  | some dot =>
    have hdot : dot ≠ 0 := fun h => hd (by rw [h])
    simp only [dottedPut]
    rw [if_neg hdot]
    split
    · exact ⟨_, rfl, putPixel_sameOutside g x y c⟩
    · exact ⟨_, rfl, sameOutside_rfl g⟩

theorem foldl_bind_spec (step : ImageGraph α → ℤ → Option (ImageGraph α))
    (hstep : ∀ g i, ∃ g', step g i = some g' ∧ SameOutside g g') (l : List ℤ) :
    ∀ g : ImageGraph α,
      ∃ g', l.foldl (fun og i => og.bind fun g => step g i) (some g) = some g' ∧
        SameOutside g g' := by
  induction l with
  | nil => exact fun g => ⟨g, rfl, sameOutside_rfl g⟩
  | cons i l ih =>
    intro g
    obtain ⟨g1, hg1, hs1⟩ := hstep g i
    obtain ⟨g', hg', hs'⟩ := ih g1
    refine ⟨g', ?_, sameOutside_trans hs1 hs'⟩
    simpa [hg1] using hg'

/-- The x-major branch of `ImageGraph::line` (`graph.rs`), after the swap
that makes `x0 ≤ x1`: `y = round(y0 + i·dy/dx)`, `dc = i`. -/
def lineX (g : ImageGraph α) (x0 y0 x1 y1 : ℤ) (c : α) (dotted : Option ℤ) :
    Option (ImageGraph α) :=
  (intRangeIncl 0 (x1 - x0)).foldl
    (fun og i => og.bind fun g =>
      dottedPut g dotted i (x0 + i)
        (roundQ ((y0 : ℚ) + (i : ℚ) * ((y1 : ℚ) - (y0 : ℚ)) / ((x1 : ℚ) - (x0 : ℚ)))) c)
    (some g)

/-- The y-major branch of `ImageGraph::line` (`graph.rs`), after the swap
that makes `y0 ≤ y1`. -/
def lineY (g : ImageGraph α) (x0 y0 x1 y1 : ℤ) (c : α) (dotted : Option ℤ) :
    Option (ImageGraph α) :=
  (intRangeIncl 0 (y1 - y0)).foldl
    (fun og i => og.bind fun g =>
      dottedPut g dotted i
        (roundQ ((x0 : ℚ) + (i : ℚ) * ((x1 : ℚ) - (x0 : ℚ)) / ((y1 : ℚ) - (y0 : ℚ))))
        (y0 + i) c)
    (some g)

/-- `ImageGraph::line` (`graph.rs`): vertical, x-major or y-major branch,
with the argument swap inlined; `none` models the `%`-by-zero panic. -/
def line (g : ImageGraph α) (x0 y0 x1 y1 : ℤ) (c : α) (dotted : Option ℤ) :
    Option (ImageGraph α) :=
  if x0 = x1 then
    (intRangeIncl 0 (max y0 y1 - min y0 y1)).foldl
      (fun og i => og.bind fun g => dottedPut g dotted i x0 (min y0 y1 + i) c)
      (some g)
  else if absDiff y0 y1 ≤ absDiff x0 x1 then
    if x1 < x0 then lineX g x1 y1 x0 y0 c dotted else lineX g x0 y0 x1 y1 c dotted
  else
    if y1 < y0 then lineY g x1 y1 x0 y0 c dotted else lineY g x0 y0 x1 y1 c dotted

theorem lineX_spec (g : ImageGraph α) (x0 y0 x1 y1 : ℤ) (c : α)
    (dotted : Option ℤ) (hd : dotted ≠ some 0) :
    ∃ g', lineX g x0 y0 x1 y1 c dotted = some g' ∧ SameOutside g g' :=
  foldl_bind_spec _ (fun g i => dottedPut_spec g dotted i _ _ c hd) _ g

theorem lineY_spec (g : ImageGraph α) (x0 y0 x1 y1 : ℤ) (c : α)
    (dotted : Option ℤ) (hd : dotted ≠ some 0) :
    ∃ g', lineY g x0 y0 x1 y1 c dotted = some g' ∧ SameOutside g g' :=
  foldl_bind_spec _ (fun g i => dottedPut_spec g dotted i _ _ c hd) _ g

theorem line_spec (g : ImageGraph α) (x0 y0 x1 y1 : ℤ) (c : α)
    (dotted : Option ℤ) (hd : dotted ≠ some 0) :
    ∃ g', line g x0 y0 x1 y1 c dotted = some g' ∧ SameOutside g g' := by
  unfold line
  split
  · exact foldl_bind_spec _ (fun g i => dottedPut_spec g dotted i _ _ c hd) _ g
  · split
    · split
      · exact lineX_spec _ _ _ _ _ _ _ hd
      · exact lineX_spec _ _ _ _ _ _ _ hd
    · split
      · exact lineY_spec _ _ _ _ _ _ _ hd
      · exact lineY_spec _ _ _ _ _ _ _ hd

/-- The eight symmetric writes of one `ImageGraph::circle` iteration
(`graph.rs`), in source order. -/
def put8 (g : ImageGraph α) (x0 y0 d x y : ℤ) (c : α) : ImageGraph α :=
  putPixel (putPixel (putPixel (putPixel (putPixel (putPixel (putPixel (putPixel
    g x y c)
    x (y0 + d - 1 - (y - y0)) c)
    (x0 + d - 1 - (x - x0)) y c)
    (x0 + d - 1 - (x - x0)) (y0 + d - 1 - (y - y0)) c)
    (y - y0 + x0) (x - x0 + y0) c)
    (x0 + d - 1 - (y - y0)) (x - x0 + y0) c)
    (y - y0 + x0) (y0 + d - 1 - (x - x0)) c)
    (x0 + d - 1 - (y - y0)) (y0 + d - 1 - (x - x0)) c

theorem put8_sameOutside (g : ImageGraph α) (x0 y0 d x y : ℤ) (c : α) :
    SameOutside g (put8 g x0 y0 d x y c) := by
  unfold put8
  apply sameOutside_putPixel
  apply sameOutside_putPixel
  apply sameOutside_putPixel
  apply sameOutside_putPixel
  apply sameOutside_putPixel
  apply sameOutside_putPixel
  apply sameOutside_putPixel
  exact putPixel_sameOutside g x y c

/-- The inner `while hypot(x−cx, y−cy) ≤ r` loop of `ImageGraph::circle`
(`graph.rs`), for one column `x`.  The f32 guard is idealised as the exact
squared comparison (`r < 0` makes it false, as `hypot ≥ 0`).  Returns the
graph, the final `y` and `dc`, and whether the `dx > dy` early `return`
fired; `none` models the `dc % 0` panic. -/
def circleWhile (dotted : Option ℤ) (x0 y0 d : ℤ) (c : α) (cx cy r : ℚ) (x : ℤ)
    (g : ImageGraph α) (y dc : ℤ) : Option (ImageGraph α × ℤ × ℤ × Bool) :=
  if h : 0 ≤ r ∧ ((x : ℚ) - cx) ^ 2 + ((y : ℚ) - cy) ^ 2 ≤ r ^ 2 then
    if x - x0 > y - y0 then some (g, y, dc, true)
    else
      match dotted with
      | some dot =>
        if dot = 0 then none
        else if dc % dot = 0 then
          circleWhile dotted x0 y0 d c cx cy r x (put8 g x0 y0 d x y c) (y - 1) (dc + 1)
        else circleWhile dotted x0 y0 d c cx cy r x g (y - 1) (dc + 1)
      | none => circleWhile dotted x0 y0 d c cx cy r x (put8 g x0 y0 d x y c) (y - 1) (dc + 1)
  else some (g, y, dc, false)
termination_by (y - ⌈cy - r⌉ + 1).toNat
decreasing_by
  all_goals
    have hy : ⌈cy - r⌉ ≤ y := by
      obtain ⟨h1, h2⟩ := h
      apply Int.ceil_le.mpr
      nlinarith [sq_nonneg ((x : ℚ) - cx), h1, h2]
  all_goals omega

theorem circleWhile_spec (dotted : Option ℤ) (x0 y0 d : ℤ) (c : α) (cx cy r : ℚ)
    (x : ℤ) (g : ImageGraph α) (y dc : ℤ) (hd : dotted ≠ some 0) :
    ∃ out, circleWhile dotted x0 y0 d c cx cy r x g y dc = some out ∧
      SameOutside g out.1 := by
  induction g, y, dc using circleWhile.induct dotted x0 y0 d c cx cy r x with
  | case1 g y dc h hret =>
    rw [circleWhile, dif_pos h, if_pos hret]
    exact ⟨(g, y, dc, true), rfl, sameOutside_rfl g⟩
  | case2 g y dc h hret h2 heq =>
    exact absurd heq hd
  | case3 g y dc h hret dot h2 heq hdot0 hmod ih =>
    subst heq
    obtain ⟨out, hout, hs⟩ := ih
    refine ⟨out, ?_, sameOutside_trans (put8_sameOutside g x0 y0 d x y c) hs⟩
    rw [circleWhile, dif_pos h, if_neg hret]
    show (if dot = 0 then none
      else if dc % dot = 0 then
        circleWhile (some dot) x0 y0 d c cx cy r x (put8 g x0 y0 d x y c) (y - 1) (dc + 1)
      else circleWhile (some dot) x0 y0 d c cx cy r x g (y - 1) (dc + 1)) = some out
    rw [if_neg hdot0, if_pos hmod]
    exact hout
  | case4 g y dc h hret dot h2 heq hdot0 hmod ih =>
    subst heq
    obtain ⟨out, hout, hs⟩ := ih
    refine ⟨out, ?_, hs⟩
    rw [circleWhile, dif_pos h, if_neg hret]
    show (if dot = 0 then none
      else if dc % dot = 0 then
        circleWhile (some dot) x0 y0 d c cx cy r x (put8 g x0 y0 d x y c) (y - 1) (dc + 1)
      else circleWhile (some dot) x0 y0 d c cx cy r x g (y - 1) (dc + 1)) = some out
    rw [if_neg hdot0, if_neg hmod]
    exact hout
  | case5 g y dc h hret h2 heq ih =>
    subst heq
    obtain ⟨out, hout, hs⟩ := ih
    refine ⟨out, ?_, sameOutside_trans (put8_sameOutside g x0 y0 d x y c) hs⟩
    rw [circleWhile, dif_pos h, if_neg hret]
    exact hout
  | case6 g y dc h =>
    rw [circleWhile, dif_neg h]
    exact ⟨(g, y, dc, false), rfl, sameOutside_rfl g⟩

/-- `ImageGraph::circle` (`graph.rs`): `r = (d−1)/2`, centre `(x0+r, y0+r)`,
initial `y = ⌊cy⌋`, columns `x0 ..= x0 + d/2` (Rust `/` truncates: `Int.tdiv`),
threading `(g, y, dc)` and stopping at the early `return`. -/
def circle (g : ImageGraph α) (x0 y0 d : ℤ) (c : α) (dotted : Option ℤ) :
    Option (ImageGraph α) :=
  ((intRangeIncl x0 (x0 + Int.tdiv d 2)).foldl
    (fun st x => st.bind fun s =>
      if s.2.2.2 then some s
      else circleWhile dotted x0 y0 d c ((x0 : ℚ) + ((d : ℚ) - 1) / 2)
        ((y0 : ℚ) + ((d : ℚ) - 1) / 2) (((d : ℚ) - 1) / 2) x s.1 s.2.1 s.2.2.1)
    (some (g, ⌊(y0 : ℚ) + ((d : ℚ) - 1) / 2⌋, 0, false))).map Prod.fst

theorem circle_spec (g : ImageGraph α) (x0 y0 d : ℤ) (c : α)
    (dotted : Option ℤ) (hd : dotted ≠ some 0) :
    ∃ g', circle g x0 y0 d c dotted = some g' ∧ SameOutside g g' := by
  unfold circle
  have main : ∀ (l : List ℤ) (s : ImageGraph α × ℤ × ℤ × Bool),
      ∃ s', l.foldl
        (fun st x => st.bind fun s =>
          if s.2.2.2 then some s
          else circleWhile dotted x0 y0 d c ((x0 : ℚ) + ((d : ℚ) - 1) / 2)
            ((y0 : ℚ) + ((d : ℚ) - 1) / 2) (((d : ℚ) - 1) / 2) x s.1 s.2.1 s.2.2.1)
        (some s) = some s' ∧ SameOutside s.1 s'.1 := by
    intro l
    induction l with
    | nil => exact fun s => ⟨s, rfl, sameOutside_rfl s.1⟩
    | cons x l ih =>
      intro s
      by_cases hflag : s.2.2.2
      · obtain ⟨s', hs', hout⟩ := ih s
        refine ⟨s', ?_, hout⟩
        simpa [hflag] using hs'
      · obtain ⟨out, hout, hso⟩ := circleWhile_spec dotted x0 y0 d c
          ((x0 : ℚ) + ((d : ℚ) - 1) / 2) ((y0 : ℚ) + ((d : ℚ) - 1) / 2)
          (((d : ℚ) - 1) / 2) x s.1 s.2.1 s.2.2.1 hd
        obtain ⟨s', hs', hout'⟩ := ih out
        refine ⟨s', ?_, sameOutside_trans hso hout'⟩
        simpa [hflag, hout] using hs'
  obtain ⟨s', hs', hout⟩ := main _ (g, ⌊(y0 : ℚ) + ((d : ℚ) - 1) / 2⌋, 0, false)
  exact ⟨s'.1, by rw [hs']; rfl, hout⟩

/-- `ImageGraph::disc` (`graph.rs`): special cases `d = 1, 2`, otherwise a
filled `d × d` grid keeping cells with `hypot(dx, dy) ≤ 1` (idealised as the
exact squared comparison). -/
def disc (g : ImageGraph α) (x0 y0 d : ℤ) (c : α) : ImageGraph α :=
  if d = 1 then putPixel g x0 y0 c
  else if d = 2 then block g x0 y0 d d c
  else
    (intRange 0 d).foldl (fun g (i : ℤ) =>
      (intRange 0 d).foldl (fun g (j : ℤ) =>
        if (((i : ℚ) / ((d : ℚ) - 1)) * 2 - 1) ^ 2 +
            (((j : ℚ) / ((d : ℚ) - 1)) * 2 - 1) ^ 2 ≤ 1 then
          putPixel g (x0 + i) (y0 + j) c
        else g) g) g

theorem disc_sameOutside (g : ImageGraph α) (x0 y0 d : ℤ) (c : α) :
    SameOutside g (disc g x0 y0 d c) := by
  unfold disc
  split
  · exact putPixel_sameOutside g x0 y0 c
  · split
    · exact block_sameOutside g x0 y0 d d c
    · refine foldl_sameOutside _ (fun g i => foldl_sameOutside _ (fun g j => ?_) _ g) _ g
      split
      · exact putPixel_sameOutside _ _ _ _
      · exact sameOutside_rfl g

end ImageGraph

/-- C8 (counterexample): `line` is not total — with `dotted = Some(0)` the
first iteration evaluates `0 % 0` (`i32` remainder by zero), a panic,
modelled `none`. -/
theorem C8_counterexample :
    ImageGraph.line (ImageGraph.mk 1 1 fun _ _ => (0 : ℕ)) 0 0 0 0 1 (some 0) = none := by
  rfl

/-- C8 (amended): every primitive clips — dimensions are preserved and no
pixel outside the `w × h` canvas ever changes — and `put_pixel`, `frame`,
`block`, `dither` and `disc` are total, while `line` and `circle` are total
exactly on `dotted ≠ Some(0)` (`Some(0)` reaches `% 0`, a panic). -/
theorem C8_graph_clipping {α : Type u} :
    (∀ (g : ImageGraph α) (x y : ℤ) (c : α),
      ImageGraph.SameOutside g (ImageGraph.putPixel g x y c)) ∧
    (∀ (g : ImageGraph α) (x0 y0 w h : ℤ) (c : α),
      ImageGraph.SameOutside g (ImageGraph.frame g x0 y0 w h c)) ∧
    (∀ (g : ImageGraph α) (x0 y0 w h : ℤ) (c : α),
      ImageGraph.SameOutside g (ImageGraph.block g x0 y0 w h c)) ∧
    (∀ (g : ImageGraph α) (x0 y0 w h : ℤ) (c1 c2 : α),
      ImageGraph.SameOutside g (ImageGraph.ditherRect g x0 y0 w h c1 c2)) ∧
    (∀ (g : ImageGraph α) (x0 y0 d : ℤ) (c : α),
      ImageGraph.SameOutside g (ImageGraph.disc g x0 y0 d c)) ∧
    (∀ (g : ImageGraph α) (x0 y0 x1 y1 : ℤ) (c : α) (dotted : Option ℤ),
      dotted ≠ some 0 →
      ∃ g', ImageGraph.line g x0 y0 x1 y1 c dotted = some g' ∧
        ImageGraph.SameOutside g g') ∧
    (∀ (g : ImageGraph α) (x0 y0 d : ℤ) (c : α) (dotted : Option ℤ),
      dotted ≠ some 0 →
      ∃ g', ImageGraph.circle g x0 y0 d c dotted = some g' ∧
        ImageGraph.SameOutside g g') :=
  ⟨ImageGraph.putPixel_sameOutside,
   ImageGraph.frame_sameOutside,
   ImageGraph.block_sameOutside,
   ImageGraph.ditherRect_sameOutside,
   ImageGraph.disc_sameOutside,
   fun g x0 y0 x1 y1 c dotted hd => ImageGraph.line_spec g x0 y0 x1 y1 c dotted hd,
   fun g x0 y0 d c dotted hd => ImageGraph.circle_spec g x0 y0 d c dotted hd⟩

/-- C8 witness: the amended theorem applied at a concrete graph, with a
dotted line (`dot = 2`) and a dotted circle (`dot = 1`). -/
theorem C8_graph_clipping_witness :
    (∃ g', ImageGraph.line (ImageGraph.mk 2 2 fun _ _ => (0 : ℕ)) 0 0 0 5 1 (some 2) =
      some g' ∧ ImageGraph.SameOutside (ImageGraph.mk 2 2 fun _ _ => (0 : ℕ)) g') ∧
    (∃ g', ImageGraph.circle (ImageGraph.mk 2 2 fun _ _ => (0 : ℕ)) 0 0 3 1 (some 1) =
      some g' ∧ ImageGraph.SameOutside (ImageGraph.mk 2 2 fun _ _ => (0 : ℕ)) g') :=
  ⟨(C8_graph_clipping (α := ℕ)).2.2.2.2.2.1 _ 0 0 0 5 1 (some 2) (by decide),
   (C8_graph_clipping (α := ℕ)).2.2.2.2.2.2 _ 0 0 3 1 (some 1) (by decide)⟩
